import Mathlib

/-!
Shallow embedding of food_delivery_simulation.py, a simpy-based
discrete-event simulation of a food delivery dispatch system, together
with proofs of the specification's claims about it.

Modelling conventions:
- Simulated time and all durations are rationals (the source uses Python
  floats; the claims are about exact accounting identities and orderings).
- The module-level PRNG stream produced by random.seed(RANDOM_SEED) is
  abstracted as an input sequence s : Nat -> Rat of expovariate outputs,
  consumed one value per expovariate call, in call order.
- simpy's event heap is embedded as a list of entries sorted by the key
  (time, priority) with stable FIFO insertion for equal keys; priority 0
  models simpy's URGENT priority (used by process-initialization events)
  and priority 1 models NORMAL (timeouts, triggered events).
- Python exceptions are modelled with Except: ZeroDivisionError from
  expovariate with a zero rate argument, and ValueError from a negative
  timeout delay or from simpy.Resource construction with capacity <= 0.
-/

namespace FoodDelivery

/-- SIM_TIME = 180: the fixed horizon (minutes) used by env.run(until=SIM_TIME). -/
def SIM_TIME : ℚ := 180

/-- RANDOM_SEED = 42: the fixed module-level seed. -/
def RANDOM_SEED : ℕ := 42

/-- Exceptions the program can raise (Python exception classes), plus the
InvalidConfig exception named by the spec. The constructor invalidConfig is
modelled from the spec only: no such exception class exists in the code and
the run never produces it. -/
inductive PyErr where
  | valueError : PyErr
  | zeroDivisionError : PyErr
  | invalidConfig : PyErr
deriving DecidableEq, Repr

/-- The configuration of one run: num_riders (as simpy Resource capacity,
already validated positive), order_rate, delivery_time_mean. -/
structure Cfg where
  capacity : ℕ
  order_rate : ℚ
  delivery_time_mean : ℚ
deriving DecidableEq, Repr

/-- Resumption points of the three generator functions in the source.
Each constructor is one kind of scheduled event:
arriveInit is the Initialize event of generate_orders; arrive oid is its
timeout firing, after which order oid is spawned; orderStart is the
Initialize event of process_order (which requests a rider); granted is the
firing of a succeeded rider request, resuming process_order past yield
request; deliverStart is the Initialize event of deliver_order (which draws
the delivery duration); deliverEnd is its timeout firing; orderFinish is
the termination event of the deliver_order process, resuming process_order
past yield env.process(...), where busy time is added and the rider
released. Fields arrival and start record env.now at request time and at
grant time respectively. -/
inductive Ev where
  | arriveInit : Ev
  | arrive (oid : ℕ) : Ev
  | orderStart (oid : ℕ) : Ev
  | granted (oid : ℕ) (arrival : ℚ) : Ev
  | deliverStart (oid : ℕ) (start : ℚ) : Ev
  | deliverEnd (oid : ℕ) (start : ℚ) (d : ℚ) : Ev
  | orderFinish (oid : ℕ) (start : ℚ) : Ev
deriving DecidableEq, Repr

/-- simpy schedules process-initialization events with URGENT priority (0)
and timeouts and triggered events with NORMAL priority (1). -/
def Ev.prio : Ev → ℕ
  | .arriveInit => 0
  | .arrive _ => 1
  | .orderStart _ => 0
  | .granted _ _ => 1
  | .deliverStart _ _ => 0
  | .deliverEnd _ _ _ => 1
  | .orderFinish _ _ => 1

/-- One pending event of the scheduler: trigger time plus resumption. -/
structure Entry where
  time : ℚ
  ev : Ev
deriving DecidableEq, Repr

/-- The heap key order: (time, priority) lexicographically, as in simpy's
event heap. -/
def keyLE (a b : Entry) : Prop :=
  a.time < b.time ∨ (a.time = b.time ∧ a.ev.prio ≤ b.ev.prio)

instance : DecidablePred fun p : Entry × Entry => keyLE p.1 p.2 := fun _ => by
  unfold keyLE; infer_instance

instance (a b : Entry) : Decidable (keyLE a b) := by
  unfold keyLE; infer_instance

/-- Stable insertion into the time-ordered pending-event list: the new
entry goes after every entry whose key is less than or equal to its own,
so equal-key events fire in insertion order (simpy's heap is stable via
its event-id tie-break). -/
def insertEntry (e : Entry) : List Entry → List Entry
  | [] => [e]
  | x :: xs => if keyLE x e then x :: insertEntry e xs else e :: x :: xs

/-- The full state of one run: the scheduler clock and pending-event list,
the rider pool (in_use count and FIFO waiters queue holding
(order_id, arrival_time) per queued request), the metrics accumulators
wait_times, delivery_times and busy_time of FoodDeliverySystem, the
position idx of the module-level random stream, and two history observers
that record, in order, every grant as (arrival_time, grant_time) and the
trigger time of every event the scheduler fires. -/
structure SimState where
  now : ℚ
  queue : List Entry
  in_use : ℤ
  waiters : List (ℕ × ℚ)
  wait_times : List ℚ
  delivery_times : List ℚ
  busy_time : ℚ
  idx : ℕ
  grant_log : List (ℚ × ℚ)
  fired : List ℚ
deriving DecidableEq, Repr

/-- The state at env.run start: clock 0, only the generate_orders
initialization event pending, an idle rider pool, empty accumulators. -/
def initState : SimState :=
  { now := 0
    queue := [⟨0, .arriveInit⟩]
    in_use := 0
    waiters := []
    wait_times := []
    delivery_times := []
    busy_time := 0
    idx := 0
    grant_log := []
    fired := [] }

/-- Handle one fired event (the clock has already advanced to its trigger
time and it has been removed from the pending list). Each case transcribes
the next segment of the corresponding generator in the source, up to its
next yield. -/
def handle (cfg : Cfg) (s : ℕ → ℚ) (st : SimState) : Ev → Except PyErr SimState
  | .arriveInit =>
      -- generate_orders first resumption: interarrival = expovariate(order_rate)
      if cfg.order_rate = 0 then .error .zeroDivisionError else
      let g := s st.idx
      -- env.timeout raises ValueError on a negative delay
      if g < 0 then .error .valueError else
      .ok { st with idx := st.idx + 1
                    queue := insertEntry ⟨st.now + g, .arrive 1⟩ st.queue }
  | .arrive oid =>
      -- timeout fired: order_id += 1; env.process(process_order(order_id));
      -- then loop: interarrival = expovariate(order_rate); yield timeout
      let q1 := insertEntry ⟨st.now, .orderStart oid⟩ st.queue
      if cfg.order_rate = 0 then .error .zeroDivisionError else
      let g := s st.idx
      if g < 0 then .error .valueError else
      .ok { st with idx := st.idx + 1
                    queue := insertEntry ⟨st.now + g, .arrive (oid + 1)⟩ q1 }
  | .orderStart oid =>
      -- process_order: arrival_time = env.now; request = riders.request():
      -- grant immediately if a rider is free, else join the FIFO waiters
      if st.in_use < (cfg.capacity : ℤ) then
        .ok { st with in_use := st.in_use + 1
                      queue := insertEntry ⟨st.now, .granted oid st.now⟩ st.queue }
      else
        .ok { st with waiters := st.waiters ++ [(oid, st.now)] }
  | .granted oid arrival =>
      -- yield request returned: wait = env.now - arrival_time; record it;
      -- start = env.now; yield env.process(deliver_order(order_id))
      .ok { st with wait_times := st.wait_times ++ [st.now - arrival]
                    grant_log := st.grant_log ++ [(arrival, st.now)]
                    queue := insertEntry ⟨st.now, .deliverStart oid st.now⟩ st.queue }
  | .deliverStart _oid start =>
      -- deliver_order: delivery_duration = expovariate(1.0 / delivery_time_mean)
      if cfg.delivery_time_mean = 0 then .error .zeroDivisionError else
      let d := s st.idx
      if d < 0 then .error .valueError else
      .ok { st with idx := st.idx + 1
                    queue := insertEntry ⟨st.now + d, .deliverEnd _oid start d⟩ st.queue }
  | .deliverEnd oid start d =>
      -- timeout fired: delivery_times.append(delivery_duration); deliver_order
      -- returns, terminating its process
      .ok { st with delivery_times := st.delivery_times ++ [d]
                    queue := insertEntry ⟨st.now, .orderFinish oid start⟩ st.queue }
  | .orderFinish _oid start =>
      -- process_order resumes: end = env.now; busy_time += end - start;
      -- the with-block exit releases the rider, which hands it to the head
      -- waiter if any (simpy increments users again at once: direct hand-off)
      let st1 := { st with busy_time := st.busy_time + (st.now - start)
                           in_use := st.in_use - 1 }
      match st1.waiters with
      | [] => .ok st1
      | (oid2, arr2) :: rest =>
          .ok { st1 with in_use := st1.in_use + 1
                         waiters := rest
                         queue := insertEntry ⟨st1.now, .granted oid2 arr2⟩ st1.queue }

/-- One scheduler step: pop the earliest pending event, advance the clock
to its trigger time, record the firing, and run its continuation. -/
def stepE (cfg : Cfg) (s : ℕ → ℚ) (st : SimState) : Except PyErr SimState :=
  match st.queue with
  | [] => .ok st
  | e :: rest =>
      handle cfg s { st with now := e.time, queue := rest, fired := st.fired ++ [e.time] } e.ev

/-- env.run(until=SIM_TIME): repeatedly fire the earliest pending event
while its trigger time is strictly below the horizon (simpy schedules the
stop event with URGENT priority at the horizon, so NORMAL events at
exactly the horizon are not fired). The fuel argument bounds the number of
iterations of this unboundedly long loop; every theorem below either holds
for all fuel values or exhibits a fuel large enough for the run at hand to
reach its stop condition. -/
def runE (cfg : Cfg) (s : ℕ → ℚ) : ℕ → SimState → Except PyErr SimState
  | 0, st => .ok st
  | n + 1, st =>
      match st.queue with
      | [] => .ok st
      | e :: _ =>
          if e.time < SIM_TIME then (stepE cfg s st).bind (runE cfg s n) else .ok st

/-- Python round(x, 2): round half to even at two decimal places
(on exact rationals; the source operates on binary floats). -/
def round2 (q : ℚ) : ℚ :=
  let x := q * 100
  let n := ⌊x⌋
  let f := x - n
  (if f < 1 / 2 then (n : ℚ)
   else if 1 / 2 < f then (n + 1 : ℤ)
   else if n % 2 = 0 then (n : ℚ) else (n + 1 : ℤ)) / 100

/-- statistics.mean(l) if l else 0, as in run_simulation. -/
def meanOrZero (l : List ℚ) : ℚ :=
  if l = [] then 0 else l.sum / l.length

/-- The record run_simulation returns (dict keys mapped to the spec's
SummaryMetrics field names). -/
structure SummaryMetrics where
  riders : ℤ
  order_rate : ℚ
  avg_wait_minutes : ℚ
  avg_service_minutes : ℚ
  utilization_percent : ℚ
  orders_completed : ℕ
deriving DecidableEq, Repr

/-- The final reduction run_simulation performs on the accumulated state:
means defaulting to 0 on empty samples, utilization busy/(SIM_TIME*riders)
*100, and the in-source 2-decimal rounding of the four real-valued fields. -/
def summarize (num_riders : ℤ) (order_rate : ℚ) (st : SimState) : SummaryMetrics :=
  { riders := num_riders
    order_rate := round2 order_rate
    avg_wait_minutes := round2 (meanOrZero st.wait_times)
    avg_service_minutes := round2 (meanOrZero st.delivery_times)
    utilization_percent := round2 (st.busy_time / (SIM_TIME * num_riders) * 100)
    orders_completed := st.delivery_times.length }

/-- run_simulation(num_riders, order_rate, delivery_time_mean=15): reseed
the module PRNG (abstracted: the stream s is the post-seed stream), build
the environment and FoodDeliverySystem (simpy.Resource raises ValueError
when capacity <= 0), run to the horizon, and reduce. -/
def run_simulation (fuel : ℕ) (num_riders : ℤ) (order_rate : ℚ)
    (delivery_time_mean : ℚ) (s : ℕ → ℚ) : Except PyErr SummaryMetrics :=
  if num_riders ≤ 0 then .error .valueError
  else
    (runE ⟨num_riders.toNat, order_rate, delivery_time_mean⟩ s fuel initState).map
      (summarize num_riders order_rate)

/-- The module-level state of Python's random: the remaining stream and the
position reached in it. -/
structure RandomState where
  stream : ℕ → ℚ
  pos : ℕ

/-- run_simulation as a state transformer over the module-level PRNG state:
mt is the abstract seeding function (seed n yields the expovariate output
stream mt n), and the incoming state g is whatever previous calls in the
process left behind. The body first executes random.seed(RANDOM_SEED),
discarding g. Returns the result together with the outgoing PRNG state. -/
def run_simulation_proc (mt : ℕ → ℕ → ℚ) (fuel : ℕ) (num_riders : ℤ)
    (order_rate : ℚ) (delivery_time_mean : ℚ) (_g : RandomState) :
    Except PyErr SummaryMetrics × RandomState :=
  let s := mt RANDOM_SEED
  if num_riders ≤ 0 then (.error .valueError, ⟨s, 0⟩)
  else
    match runE ⟨num_riders.toNat, order_rate, delivery_time_mean⟩ s fuel initState with
    | .error e => (.error e, ⟨s, 0⟩)
    | .ok st => (.ok (summarize num_riders order_rate st), ⟨s, st.idx⟩)

/-! ### Run-loop lemmas -/

/-- The stop condition of env.run(until=SIM_TIME): no pending event, or the
earliest pending event triggers at or after the horizon. -/
def stopped (st : SimState) : Prop :=
  match st.queue with
  | [] => True
  | e :: _ => SIM_TIME ≤ e.time

instance (st : SimState) : Decidable (stopped st) := by
  unfold stopped; exact match st.queue with
  | [] => inferInstanceAs (Decidable True)
  | _ :: _ => inferInstanceAs (Decidable (_ ≤ _))

/-! ### The run invariant -/

/-- The service start time carried by an entry belonging to an order that
currently holds a rider (a granted request resumes at its trigger time, so
its start is that trigger time). Yields none for entries of orders not
holding a rider. -/
def activeStart (e : Entry) : Option ℚ :=
  match e.ev with
  | .granted _ _ => some e.time
  | .deliverStart _ start => some start
  | .deliverEnd _ start _ => some start
  | .orderFinish _ start => some start
  | _ => none

/-- The arrival time carried by a pending granted event. -/
def pendingGrantArr (e : Entry) : Option ℚ :=
  match e.ev with
  | .granted _ arrival => some arrival
  | _ => none

/-- Pending busy time of already-recorded deliveries whose orderFinish
resumption has not fired yet. -/
def finishPend (e : Entry) : Option ℚ :=
  match e.ev with
  | .orderFinish _ start => some (e.time - start)
  | _ => none

/-- Whether an entry is a pending deliverStart resumption. -/
def isDS (e : Entry) : Bool :=
  match e.ev with
  | .deliverStart _ _ => true
  | _ => false

/-- Whether an entry is a pending deliverEnd resumption. -/
def isDE (e : Entry) : Bool :=
  match e.ev with
  | .deliverEnd _ _ _ => true
  | _ => false

/-- The arrival times of all orders that have been or will be granted a
rider, in grant order: already-logged grants, then pending granted events,
then the FIFO waiters. -/
def grantArrs (st : SimState) : List ℚ :=
  st.grant_log.map Prod.fst ++ st.queue.filterMap pendingGrantArr ++
    st.waiters.map Prod.snd

/-- The invariant every reachable state of a run satisfies. -/
structure Inv (cfg : Cfg) (st : SimState) : Prop where
  sortedQ : st.queue.Pairwise keyLE
  timesGE : ∀ e ∈ st.queue, st.now ≤ e.time
  nowLT : st.now < SIM_TIME
  grantedLE : ∀ e ∈ st.queue,
      (pendingGrantArr e).isSome ∨ (finishPend e).isSome → e.time ≤ st.now
  countA : st.in_use = ((st.queue.filterMap activeStart).length : ℤ)
  inUseLE : st.in_use ≤ (cfg.capacity : ℤ)
  waitersFull : st.waiters ≠ [] → st.in_use = (cfg.capacity : ℤ)
  startsLE : ∀ x ∈ st.queue.filterMap activeStart, x ≤ st.now
  potential : st.busy_time + (st.in_use : ℚ) * st.now -
      (st.queue.filterMap activeStart).sum ≤ (cfg.capacity : ℚ) * st.now
  arrChain : List.Chain' (· ≤ ·) (grantArrs st)
  arrsLE : ∀ a ∈ grantArrs st, a ≤ st.now
  grantChain : List.Chain' (· ≤ ·) (st.grant_log.map Prod.snd)
  grantLE : ∀ p ∈ st.grant_log, p.2 ≤ st.now
  lenInv : st.wait_times.length =
      st.delivery_times.length + st.queue.countP isDS + st.queue.countP isDE
  busyDelivery : st.delivery_times.sum =
      st.busy_time + (st.queue.filterMap finishPend).sum
  deTime : ∀ e ∈ st.queue, ∀ oid start d, e.ev = .deliverEnd oid start d →
      e.time = start + d
  dsTime : ∀ e ∈ st.queue, ∀ oid start, e.ev = .deliverStart oid start →
      e.time = start
  firedChain : List.Chain' (· ≤ ·) st.fired
  firedLE : ∀ t ∈ st.fired, t ≤ st.now ∧ t < SIM_TIME

/-! ### Concrete runs used as witnesses and counterexamples -/

/-- Extract the final state of a successful run (initState on error). -/
def okState (x : Except PyErr SimState) : SimState :=
  match x with
  | .ok st => st
  | .error _ => initState

/-- A one-rider configuration: num_riders=1, order_rate=0.6, mean 15. -/
def cfgA : Cfg := ⟨1, 6 / 10, 15⟩

/-- Draw stream: first gap 1, second gap 1000, first delivery 300. The
single order is granted at t=1 and is still in service at the horizon. -/
def sA : ℕ → ℚ := fun i => [(1 : ℚ), 1000, 300].getD i 1000

/-- Draw stream: gaps 1, 1, 1000; deliveries 1.125 and 1. Order 2 waits
0.125 minutes, both orders complete well before the horizon. -/
def sB : ℕ → ℚ := fun i => [(1 : ℚ), 1, 1.125, 1000, 1].getD i 1000

/-- Draw stream: gap 10, gap 1000, delivery 170: the delivery completion
event triggers exactly at the horizon 180. -/
def sC : ℕ → ℚ := fun i => [(10 : ℚ), 1000, 170].getD i 1000

/-- Draw stream for the capacity-scaling comparison: because both runs
consume the single seeded stream in event order, changing the capacity
from 5 to 8 reassigns later values between interarrival gaps and delivery
durations, producing a higher average wait with more riders. -/
def s9 : ℕ → ℚ := fun i =>
  [(1 : ℚ), 1, 9.5, 1, 9.5, 1, 9.5, 1, 9.5, 1, 9.5, 1,
   60, 0.5, 60, 0.5, 60, 0.5, 0.5, 0.5, 0.5, 1000, 0.3, 0.3, 0.3, 0.3, 0.3].getD i 1000

/-- A stream whose first gap already exceeds the horizon: no order is ever
created. -/
def sBig : ℕ → ℚ := fun _ => 1000

/-- Modelled from the spec: the unrounded pure reduction of section 4.6,
avg_wait = mean(wait_durations) (0 if empty), avg_service likewise,
utilization = busy_time_total / (horizon * capacity) * 100,
orders_completed = count(service_durations), no rounding in the core. -/
def specSummary (num_riders : ℤ) (order_rate : ℚ) (st : SimState) : SummaryMetrics :=
  { riders := num_riders
    order_rate := order_rate
    avg_wait_minutes := meanOrZero st.wait_times
    avg_service_minutes := meanOrZero st.delivery_times
    utilization_percent := st.busy_time / (SIM_TIME * num_riders) * 100
    orders_completed := st.delivery_times.length }

/-- The 2-decimal rounding run_simulation applies to the four real-valued
fields before returning. -/
def roundFields (m : SummaryMetrics) : SummaryMetrics :=
  { m with order_rate := round2 m.order_rate
           avg_wait_minutes := round2 m.avg_wait_minutes
           avg_service_minutes := round2 m.avg_service_minutes
           utilization_percent := round2 m.utilization_percent }

/-! ### Order properties of the heap key -/

theorem keyLE_total (a b : Entry) : keyLE a b ∨ keyLE b a := by
  unfold keyLE
  rcases lt_trichotomy a.time b.time with h | h | h
  · exact Or.inl (Or.inl h)
  · rcases le_total a.ev.prio b.ev.prio with hp | hp
    · exact Or.inl (Or.inr ⟨h, hp⟩)
    · exact Or.inr (Or.inr ⟨h.symm, hp⟩)
  · exact Or.inr (Or.inl h)

theorem keyLE_trans {a b c : Entry} (hab : keyLE a b) (hbc : keyLE b c) : keyLE a c := by
  unfold keyLE at *
  rcases hab with h1 | ⟨h1, p1⟩ <;> rcases hbc with h2 | ⟨h2, p2⟩
  · exact Or.inl (h1.trans h2)
  · exact Or.inl (h2 ▸ h1)
  · exact Or.inl (h1 ▸ h2)
  · exact Or.inr ⟨h1.trans h2, p1.trans p2⟩

theorem keyLE_of_not {a b : Entry} (h : ¬ keyLE a b) : keyLE b a :=
  (keyLE_total a b).resolve_left h

/-! ### insertEntry lemmas -/

theorem insertEntry_perm (e : Entry) (l : List Entry) :
    (insertEntry e l).Perm (e :: l) := by
  induction l with
  | nil => simp [insertEntry]
  | cons x xs ih =>
      by_cases h : keyLE x e
      · simpa [insertEntry, h] using ((ih.cons x).trans (List.Perm.swap e x xs))
      · simp [insertEntry, h]

theorem mem_insertEntry {x e : Entry} {l : List Entry} :
    x ∈ insertEntry e l ↔ x = e ∨ x ∈ l := by
  rw [(insertEntry_perm e l).mem_iff]; simp

theorem pairwise_insertEntry {e : Entry} {l : List Entry}
    (h : l.Pairwise keyLE) : (insertEntry e l).Pairwise keyLE := by
  induction l with
  | nil => simp [insertEntry]
  | cons x xs ih =>
      rcases List.pairwise_cons.mp h with ⟨hx, hxs⟩
      by_cases hk : keyLE x e
      · rw [insertEntry, if_pos hk]
        refine List.pairwise_cons.mpr ⟨?_, ih hxs⟩
        intro y hy
        rcases mem_insertEntry.mp hy with rfl | hy
        · exact hk
        · exact hx y hy
      · rw [insertEntry, if_neg hk]
        refine List.pairwise_cons.mpr ⟨?_, h⟩
        intro y hy
        rcases List.mem_cons.mp hy with rfl | hy
        · exact keyLE_of_not hk
        · exact keyLE_trans (keyLE_of_not hk) (hx y hy)

theorem filterMap_insertEntry_perm (f : Entry → Option α) (e : Entry) (l : List Entry) :
    ((insertEntry e l).filterMap f).Perm ((e :: l).filterMap f) :=
  (insertEntry_perm e l).filterMap f

theorem length_filterMap_insertEntry (f : Entry → Option α) (e : Entry) (l : List Entry) :
    ((insertEntry e l).filterMap f).length = ((e :: l).filterMap f).length :=
  (filterMap_insertEntry_perm f e l).length_eq

theorem sum_filterMap_insertEntry (f : Entry → Option ℚ) (e : Entry) (l : List Entry) :
    ((insertEntry e l).filterMap f).sum = ((e :: l).filterMap f).sum :=
  (filterMap_insertEntry_perm f e l).sum_eq

/-- Inserting an entry the extractor ignores leaves the extracted
subsequence unchanged, order included. -/
theorem filterMap_insertEntry_none {f : Entry → Option α} {e : Entry}
    (hf : f e = none) (l : List Entry) :
    (insertEntry e l).filterMap f = l.filterMap f := by
  induction l with
  | nil => simp [insertEntry, hf]
  | cons x xs ih =>
      by_cases hk : keyLE x e
      · simp only [insertEntry, if_pos hk, List.filterMap_cons]
        cases f x <;> simp [ih]
      · simp [insertEntry, if_neg hk, List.filterMap_cons, hf]

/-- If every entry the extractor keeps sorts no later than the new entry,
insertion appends the new entry's extraction at the end of the extracted
subsequence. -/
theorem filterMap_insertEntry_append {f : Entry → Option α} {e : Entry} {l : List Entry}
    (hpair : l.Pairwise keyLE)
    (h : ∀ x ∈ l, (f x).isSome → keyLE x e) :
    (insertEntry e l).filterMap f = l.filterMap f ++ (f e).toList := by
  induction l with
  | nil => cases hfe : f e <;> simp [insertEntry, hfe]
  | cons x xs ih =>
      rcases List.pairwise_cons.mp hpair with ⟨hx, hxs⟩
      by_cases hk : keyLE x e
      · have := ih hxs (fun y hy hfy => h y (List.mem_cons_of_mem x hy) hfy)
        simp only [insertEntry, if_pos hk, List.filterMap_cons]
        cases f x <;> simp [this]
      · have hnone : ∀ y ∈ x :: xs, f y = none := by
          intro y hy
          rcases List.mem_cons.mp hy with rfl | hy
          · cases hfy : f y
            · rfl
            · exact absurd (h y (List.mem_cons_self y xs) (by simp [hfy])) hk
          · cases hfy : f y
            · rfl
            · exact absurd (keyLE_trans (hx y hy) (h y (List.mem_cons_of_mem x hy) (by simp [hfy])))
                hk
        have hfx := hnone x (List.mem_cons_self x xs)
        have : xs.filterMap f = [] := by
          rw [List.filterMap_eq_nil_iff]
          intro y hy; exact hnone y (List.mem_cons_of_mem x hy)
        cases hfe : f e <;>
          simp [insertEntry, if_neg hk, List.filterMap_cons, hfx, this, hfe]

theorem runE_of_stopped (cfg : Cfg) (s : ℕ → ℚ) {st : SimState} (h : stopped st)
    (n : ℕ) : runE cfg s n st = .ok st := by
  cases n with
  | zero => rfl
  | succ n =>
      unfold stopped at h
      unfold runE
      cases hq : st.queue with
      | nil => rfl
      | cons e rest => rw [hq] at h; simp [not_lt.mpr h]

/-- Once a run has reached its stop condition, further fuel does not change
the result. -/
theorem runE_mono (cfg : Cfg) (s : ℕ → ℚ) {st st1 : SimState} :
    ∀ {n m : ℕ}, runE cfg s n st = .ok st1 → stopped st1 → n ≤ m →
      runE cfg s m st = .ok st1 := by
  intro n
  induction n generalizing st with
  | zero =>
      intro m h hstop _
      cases h
      exact runE_of_stopped cfg s hstop m
  | succ n ih =>
      intro m h hstop hnm
      cases hq : st.queue with
      | nil =>
          simp only [runE, hq] at h
          cases h
          exact runE_of_stopped cfg s (by unfold stopped; rw [hq]; trivial) m
      | cons e rest =>
          simp only [runE, hq] at h
          by_cases hguard : e.time < SIM_TIME
          · rw [if_pos hguard] at h
            cases m with
            | zero => omega
            | succ m =>
                simp only [runE, hq, if_pos hguard]
                cases hstep : stepE cfg s st with
                | error err => rw [hstep] at h; simp [Except.bind] at h
                | ok st2 =>
                    rw [hstep] at h
                    simp only [Except.bind] at h ⊢
                    exact ih h hstop (by omega)
          · rw [if_neg hguard] at h
            cases h
            exact runE_of_stopped cfg s
              (by unfold stopped; rw [hq]; exact not_lt.mp hguard) m

theorem inv_init (cfg : Cfg) : Inv cfg initState := by
  constructor <;> simp [initState, grantArrs, SIM_TIME, activeStart, pendingGrantArr,
    finishPend, List.countP, List.countP.go, isDS, isDE]

/-! ### Small helper lemmas for the preservation proof -/

theorem keyLE_time {a b : Entry} (h : keyLE a b) : a.time ≤ b.time := by
  rcases h with h | ⟨h, _⟩
  · exact h.le
  · exact le_of_eq h

theorem chainLE_snoc {l : List ℚ} {a : ℚ} (hl : List.Chain' (· ≤ ·) l)
    (ha : ∀ x ∈ l, x ≤ a) : List.Chain' (· ≤ ·) (l ++ [a]) := by
  refine hl.append (List.chain'_singleton a) ?_
  intro x hx y hy
  simp only [List.head?_cons, Option.mem_def, Option.some.injEq] at hy
  subst hy
  rcases List.mem_getLast?_eq_getLast hx with ⟨hne, rfl⟩
  exact ha _ (List.getLast_mem hne)

theorem pot_advance {B S U C n n' : ℚ} (h : B + U * n - S ≤ C * n)
    (hUC : U ≤ C) (hn : n ≤ n') : B + U * n' - S ≤ C * n' := by
  nlinarith [mul_nonneg (sub_nonneg.mpr hUC) (sub_nonneg.mpr hn)]

theorem pendingGrantArr_isSome {x : Entry} (hx : (pendingGrantArr x).isSome) :
    ∃ o a, x.ev = Ev.granted o a := by
  cases hev : x.ev <;> simp [pendingGrantArr, hev] at hx ⊢

/-! ### Preservation of the invariant, one lemma per event kind -/

theorem inv_step_arriveInit {cfg : Cfg} {s : ℕ → ℚ} {st st' : SimState}
    (h : Inv cfg st) {e : Entry} {rest : List Entry}
    (hq : st.queue = e :: rest) (hguard : e.time < SIM_TIME)
    (hev : e.ev = .arriveInit)
    (hstep : stepE cfg s st = .ok st') : Inv cfg st' := by
  have hnt : st.now ≤ e.time := h.timesGE e (hq ▸ List.mem_cons_self e rest)
  have hpc : (e :: rest).Pairwise keyLE := hq ▸ h.sortedQ
  obtain ⟨hhead, hpr⟩ := List.pairwise_cons.mp hpc
  have hge : ∀ x ∈ rest, e.time ≤ x.time := fun x hx => keyLE_time (hhead x hx)
  have hmem : ∀ x ∈ rest, x ∈ st.queue := by
    intro x hx; rw [hq]; exact List.mem_cons_of_mem e hx
  simp only [stepE, hq] at hstep
  rw [hev] at hstep
  simp only [handle] at hstep
  by_cases hr : cfg.order_rate = 0
  · simp [hr] at hstep
  by_cases hneg : s st.idx < 0
  · simp [hr, hneg] at hstep
  have hg0 : 0 ≤ s st.idx := not_lt.mp hneg
  simp only [if_neg hr, if_neg hneg, Except.ok.injEq] at hstep
  subst hstep
  have hA : activeStart e = none := by simp [activeStart, hev]
  have hP : pendingGrantArr e = none := by simp [pendingGrantArr, hev]
  have hF : finishPend e = none := by simp [finishPend, hev]
  have hq2A : ∀ f : Entry → Option ℚ, f ⟨e.time + s st.idx, .arrive 1⟩ = none →
      (insertEntry ⟨e.time + s st.idx, .arrive 1⟩ rest).filterMap f = rest.filterMap f :=
    fun f hf => filterMap_insertEntry_none hf rest
  constructor
  · -- sortedQ
    exact pairwise_insertEntry hpr
  · -- timesGE
    intro x hx
    rcases mem_insertEntry.mp hx with rfl | hx
    · simpa using by linarith
    · exact hge x hx
  · -- nowLT
    exact hguard
  · -- grantedLE
    intro x hx hsome
    rcases mem_insertEntry.mp hx with rfl | hx
    · rcases hsome with hs | hs <;> simp [pendingGrantArr, finishPend] at hs
    · exact (h.grantedLE x (hmem x hx) hsome).trans hnt
  · -- countA
    have := h.countA
    rw [hq, List.filterMap_cons_none hA] at this
    rw [hq2A activeStart (by simp [activeStart])]
    exact this
  · -- inUseLE
    exact h.inUseLE
  · -- waitersFull
    exact h.waitersFull
  · -- startsLE
    intro x hx
    rw [hq2A activeStart (by simp [activeStart])] at hx
    have := h.startsLE x (by rw [hq, List.filterMap_cons_none hA]; exact hx)
    exact this.trans hnt
  · -- potential
    have hpot := h.potential
    rw [hq, List.filterMap_cons_none hA] at hpot
    rw [hq2A activeStart (by simp [activeStart])]
    have hcap : (st.in_use : ℚ) ≤ (cfg.capacity : ℚ) := by exact_mod_cast h.inUseLE
    exact pot_advance hpot hcap hnt
  · -- arrChain
    have hpend : (insertEntry ⟨e.time + s st.idx, .arrive 1⟩ rest).filterMap pendingGrantArr
        = st.queue.filterMap pendingGrantArr := by
      rw [hq2A pendingGrantArr (by simp [pendingGrantArr]), hq,
        List.filterMap_cons_none hP]
    have := h.arrChain
    simp only [grantArrs] at this ⊢
    rw [hpend]
    exact this
  · -- arrsLE
    intro a ha
    have hpend : (insertEntry ⟨e.time + s st.idx, .arrive 1⟩ rest).filterMap pendingGrantArr
        = st.queue.filterMap pendingGrantArr := by
      rw [hq2A pendingGrantArr (by simp [pendingGrantArr]), hq,
        List.filterMap_cons_none hP]
    simp only [grantArrs] at ha
    rw [hpend] at ha
    exact (h.arrsLE a (by simpa [grantArrs] using ha)).trans hnt
  · -- grantChain
    exact h.grantChain
  · -- grantLE
    exact fun p hp => (h.grantLE p hp).trans hnt
  · -- lenInv
    have hlen := h.lenInv
    rw [hq] at hlen
    have hDS : ∀ l, (insertEntry ⟨e.time + s st.idx, .arrive 1⟩ l).countP isDS =
        l.countP isDS := by
      intro l
      rw [List.Perm.countP_eq _ (insertEntry_perm _ _), List.countP_cons]
      simp [isDS]
    have hDE : ∀ l, (insertEntry ⟨e.time + s st.idx, .arrive 1⟩ l).countP isDE =
        l.countP isDE := by
      intro l
      rw [List.Perm.countP_eq _ (insertEntry_perm _ _), List.countP_cons]
      simp [isDE]
    rw [hDS, hDE]
    rw [List.countP_cons, List.countP_cons] at hlen
    simpa [isDS, isDE, hev] using hlen
  · -- busyDelivery
    have hbd := h.busyDelivery
    rw [hq, List.filterMap_cons_none hF] at hbd
    rw [hq2A finishPend (by simp [finishPend])]
    exact hbd
  · -- deTime
    intro x hx oid' start d hx_ev
    rcases mem_insertEntry.mp hx with rfl | hx
    · simp at hx_ev
    · exact h.deTime x (hmem x hx) oid' start d hx_ev
  · -- dsTime
    intro x hx oid' start hx_ev
    rcases mem_insertEntry.mp hx with rfl | hx
    · simp at hx_ev
    · exact h.dsTime x (hmem x hx) oid' start hx_ev
  · -- firedChain
    exact chainLE_snoc h.firedChain (fun t ht => (h.firedLE t ht).1.trans hnt)
  · -- firedLE
    intro t ht
    rcases List.mem_append.mp ht with ht | ht
    · exact ⟨(h.firedLE t ht).1.trans hnt, (h.firedLE t ht).2⟩
    · rcases List.mem_singleton.mp ht with rfl
      exact ⟨le_refl _, hguard⟩

theorem inv_step_arrive {cfg : Cfg} {s : ℕ → ℚ} {st st' : SimState}
    (h : Inv cfg st) {e : Entry} {rest : List Entry}
    (hq : st.queue = e :: rest) (hguard : e.time < SIM_TIME) {oid : ℕ}
    (hev : e.ev = .arrive oid)
    (hstep : stepE cfg s st = .ok st') : Inv cfg st' := by
  have hnt : st.now ≤ e.time := h.timesGE e (hq ▸ List.mem_cons_self e rest)
  have hpc : (e :: rest).Pairwise keyLE := hq ▸ h.sortedQ
  obtain ⟨hhead, hpr⟩ := List.pairwise_cons.mp hpc
  have hge : ∀ x ∈ rest, e.time ≤ x.time := fun x hx => keyLE_time (hhead x hx)
  have hmem : ∀ x ∈ rest, x ∈ st.queue := by
    intro x hx; rw [hq]; exact List.mem_cons_of_mem e hx
  simp only [stepE, hq] at hstep
  rw [hev] at hstep
  simp only [handle] at hstep
  by_cases hr : cfg.order_rate = 0
  · simp [hr] at hstep
  by_cases hneg : s st.idx < 0
  · simp [hr, hneg] at hstep
  have hg0 : 0 ≤ s st.idx := not_lt.mp hneg
  simp only [if_neg hr, if_neg hneg, Except.ok.injEq] at hstep
  subst hstep
  have hA : activeStart e = none := by simp [activeStart, hev]
  have hP : pendingGrantArr e = none := by simp [pendingGrantArr, hev]
  have hF : finishPend e = none := by simp [finishPend, hev]
  have hpr1 : (insertEntry ⟨e.time, .orderStart oid⟩ rest).Pairwise keyLE :=
    pairwise_insertEntry hpr
  have hIns1 : ∀ f : Entry → Option ℚ, f ⟨e.time, .orderStart oid⟩ = none →
      (insertEntry ⟨e.time, .orderStart oid⟩ rest).filterMap f = rest.filterMap f :=
    fun f hf => filterMap_insertEntry_none hf rest
  have hIns2 : ∀ f : Entry → Option ℚ, f ⟨e.time + s st.idx, .arrive (oid + 1)⟩ = none →
      (insertEntry ⟨e.time + s st.idx, .arrive (oid + 1)⟩
        (insertEntry ⟨e.time, .orderStart oid⟩ rest)).filterMap f =
        (insertEntry ⟨e.time, .orderStart oid⟩ rest).filterMap f :=
    fun f hf => filterMap_insertEntry_none hf _
  constructor
  · -- sortedQ
    exact pairwise_insertEntry hpr1
  · -- timesGE
    intro x hx
    rcases mem_insertEntry.mp hx with rfl | hx
    · simpa using by linarith
    · rcases mem_insertEntry.mp hx with rfl | hx
      · simp
      · exact hge x hx
  · -- nowLT
    exact hguard
  · -- grantedLE
    intro x hx hsome
    rcases mem_insertEntry.mp hx with rfl | hx
    · rcases hsome with hs | hs <;> simp [pendingGrantArr, finishPend] at hs
    · rcases mem_insertEntry.mp hx with rfl | hx
      · rcases hsome with hs | hs <;> simp [pendingGrantArr, finishPend] at hs
      · exact (h.grantedLE x (hmem x hx) hsome).trans hnt
  · -- countA
    have := h.countA
    rw [hq, List.filterMap_cons_none hA] at this
    rw [hIns2 activeStart (by simp [activeStart]), hIns1 activeStart (by simp [activeStart])]
    exact this
  · -- inUseLE
    exact h.inUseLE
  · -- waitersFull
    exact h.waitersFull
  · -- startsLE
    intro x hx
    rw [hIns2 activeStart (by simp [activeStart]),
      hIns1 activeStart (by simp [activeStart])] at hx
    have := h.startsLE x (by rw [hq, List.filterMap_cons_none hA]; exact hx)
    exact this.trans hnt
  · -- potential
    have hpot := h.potential
    rw [hq, List.filterMap_cons_none hA] at hpot
    rw [hIns2 activeStart (by simp [activeStart]), hIns1 activeStart (by simp [activeStart])]
    have hcap : (st.in_use : ℚ) ≤ (cfg.capacity : ℚ) := by exact_mod_cast h.inUseLE
    exact pot_advance hpot hcap hnt
  · -- arrChain
    have hpend : (insertEntry ⟨e.time + s st.idx, .arrive (oid + 1)⟩
        (insertEntry ⟨e.time, .orderStart oid⟩ rest)).filterMap pendingGrantArr
        = st.queue.filterMap pendingGrantArr := by
      rw [hIns2 pendingGrantArr (by simp [pendingGrantArr]),
        hIns1 pendingGrantArr (by simp [pendingGrantArr]), hq,
        List.filterMap_cons_none hP]
    have := h.arrChain
    simp only [grantArrs] at this ⊢
    rw [hpend]
    exact this
  · -- arrsLE
    intro a ha
    have hpend : (insertEntry ⟨e.time + s st.idx, .arrive (oid + 1)⟩
        (insertEntry ⟨e.time, .orderStart oid⟩ rest)).filterMap pendingGrantArr
        = st.queue.filterMap pendingGrantArr := by
      rw [hIns2 pendingGrantArr (by simp [pendingGrantArr]),
        hIns1 pendingGrantArr (by simp [pendingGrantArr]), hq,
        List.filterMap_cons_none hP]
    simp only [grantArrs] at ha
    rw [hpend] at ha
    exact (h.arrsLE a (by simpa [grantArrs] using ha)).trans hnt
  · -- grantChain
    exact h.grantChain
  · -- grantLE
    exact fun p hp => (h.grantLE p hp).trans hnt
  · -- lenInv
    have hlen := h.lenInv
    rw [hq, List.countP_cons, List.countP_cons] at hlen
    have c2DS : (insertEntry ⟨e.time + s st.idx, .arrive (oid + 1)⟩
        (insertEntry ⟨e.time, .orderStart oid⟩ rest)).countP isDS
        = rest.countP isDS := by
      rw [List.Perm.countP_eq _ (insertEntry_perm _ _), List.countP_cons,
        List.Perm.countP_eq _ (insertEntry_perm _ _), List.countP_cons]
      simp [isDS]
    have c2DE : (insertEntry ⟨e.time + s st.idx, .arrive (oid + 1)⟩
        (insertEntry ⟨e.time, .orderStart oid⟩ rest)).countP isDE
        = rest.countP isDE := by
      rw [List.Perm.countP_eq _ (insertEntry_perm _ _), List.countP_cons,
        List.Perm.countP_eq _ (insertEntry_perm _ _), List.countP_cons]
      simp [isDE]
    rw [c2DS, c2DE]
    simpa [isDS, isDE, hev] using hlen
  · -- busyDelivery
    have hbd := h.busyDelivery
    rw [hq, List.filterMap_cons_none hF] at hbd
    rw [hIns2 finishPend (by simp [finishPend]), hIns1 finishPend (by simp [finishPend])]
    exact hbd
  · -- deTime
    intro x hx oid' start d hx_ev
    rcases mem_insertEntry.mp hx with rfl | hx
    · simp at hx_ev
    · rcases mem_insertEntry.mp hx with rfl | hx
      · simp at hx_ev
      · exact h.deTime x (hmem x hx) oid' start d hx_ev
  · -- dsTime
    intro x hx oid' start hx_ev
    rcases mem_insertEntry.mp hx with rfl | hx
    · simp at hx_ev
    · rcases mem_insertEntry.mp hx with rfl | hx
      · simp at hx_ev
      · exact h.dsTime x (hmem x hx) oid' start hx_ev
  · -- firedChain
    exact chainLE_snoc h.firedChain (fun t ht => (h.firedLE t ht).1.trans hnt)
  · -- firedLE
    intro t ht
    rcases List.mem_append.mp ht with ht | ht
    · exact ⟨(h.firedLE t ht).1.trans hnt, (h.firedLE t ht).2⟩
    · rcases List.mem_singleton.mp ht with rfl
      exact ⟨le_refl _, hguard⟩

theorem inv_step_orderStart {cfg : Cfg} {s : ℕ → ℚ} {st st' : SimState}
    (h : Inv cfg st) {e : Entry} {rest : List Entry}
    (hq : st.queue = e :: rest) (hguard : e.time < SIM_TIME) {oid : ℕ}
    (hev : e.ev = .orderStart oid)
    (hstep : stepE cfg s st = .ok st') : Inv cfg st' := by
  have hnt : st.now ≤ e.time := h.timesGE e (hq ▸ List.mem_cons_self e rest)
  have hpc : (e :: rest).Pairwise keyLE := hq ▸ h.sortedQ
  obtain ⟨hhead, hpr⟩ := List.pairwise_cons.mp hpc
  have hge : ∀ x ∈ rest, e.time ≤ x.time := fun x hx => keyLE_time (hhead x hx)
  have hmem : ∀ x ∈ rest, x ∈ st.queue := by
    intro x hx; rw [hq]; exact List.mem_cons_of_mem e hx
  simp only [stepE, hq] at hstep
  rw [hev] at hstep
  simp only [handle] at hstep
  have hA : activeStart e = none := by simp [activeStart, hev]
  have hP : pendingGrantArr e = none := by simp [pendingGrantArr, hev]
  have hF : finishPend e = none := by simp [finishPend, hev]
  have hcap : (st.in_use : ℚ) ≤ (cfg.capacity : ℚ) := by exact_mod_cast h.inUseLE
  by_cases hfree : st.in_use < (cfg.capacity : ℤ)
  · -- a rider is free: immediate grant
    rw [if_pos hfree, Except.ok.injEq] at hstep
    subst hstep
    have hwempty : st.waiters = [] := by
      by_contra hne
      exact absurd (h.waitersFull hne) (by omega)
    have hkey : ∀ x ∈ rest, (pendingGrantArr x).isSome →
        keyLE x ⟨e.time, .granted oid e.time⟩ := by
      intro x hx hsome
      obtain ⟨o, a, hxev⟩ := pendingGrantArr_isSome hsome
      have h1 : x.time ≤ st.now := h.grantedLE x (hmem x hx) (Or.inl hsome)
      have h2 : x.time = e.time := le_antisymm (h1.trans hnt) (hge x hx)
      exact Or.inr ⟨h2, by simp [hxev, Ev.prio]⟩
    have hpend : (insertEntry ⟨e.time, .granted oid e.time⟩ rest).filterMap pendingGrantArr
        = rest.filterMap pendingGrantArr ++ [e.time] := by
      rw [filterMap_insertEntry_append hpr hkey]
      simp [pendingGrantArr]
    have hpend0 : st.queue.filterMap pendingGrantArr = rest.filterMap pendingGrantArr := by
      rw [hq, List.filterMap_cons_none hP]
    have hsum : ((insertEntry ⟨e.time, .granted oid e.time⟩ rest).filterMap
        activeStart).sum = e.time + (rest.filterMap activeStart).sum := by
      rw [sum_filterMap_insertEntry]
      simp [List.filterMap_cons, activeStart]
    have hlength : ((insertEntry ⟨e.time, .granted oid e.time⟩ rest).filterMap
        activeStart).length = (rest.filterMap activeStart).length + 1 := by
      rw [length_filterMap_insertEntry]
      simp [List.filterMap_cons, activeStart]
    constructor
    · -- sortedQ
      exact pairwise_insertEntry hpr
    · -- timesGE
      intro x hx
      rcases mem_insertEntry.mp hx with rfl | hx
      · simp
      · exact hge x hx
    · -- nowLT
      exact hguard
    · -- grantedLE
      intro x hx hsome
      rcases mem_insertEntry.mp hx with rfl | hx
      · simp
      · exact (h.grantedLE x (hmem x hx) hsome).trans hnt
    · -- countA
      have := h.countA
      rw [hq, List.filterMap_cons_none hA] at this
      rw [hlength]
      show st.in_use + 1 = (((rest.filterMap activeStart).length + 1 : ℕ) : ℤ)
      omega
    · -- inUseLE
      show st.in_use + 1 ≤ (cfg.capacity : ℤ)
      omega
    · -- waitersFull
      intro hne
      rw [hwempty] at hne
      exact absurd rfl hne
    · -- startsLE
      intro x hx
      rw [(filterMap_insertEntry_perm activeStart _ _).mem_iff] at hx
      have hfm : List.filterMap activeStart (⟨e.time, .granted oid e.time⟩ :: rest)
          = e.time :: rest.filterMap activeStart := by
        simp [List.filterMap_cons, activeStart]
      rw [hfm] at hx
      rcases List.mem_cons.mp hx with rfl | hx
      · exact le_refl _
      · have := h.startsLE x (by rw [hq, List.filterMap_cons_none hA]; exact hx)
        exact this.trans hnt
    · -- potential
      have hpot := h.potential
      rw [hq, List.filterMap_cons_none hA] at hpot
      have hadv := pot_advance hpot hcap hnt
      rw [hsum]
      push_cast
      push_cast at hadv
      linarith
    · -- arrChain
      have := h.arrChain
      simp only [grantArrs, hpend0, hwempty, List.map_nil, List.append_nil] at this
      simp only [grantArrs, hpend, hwempty, List.map_nil, List.append_nil,
        ← List.append_assoc]
      refine chainLE_snoc this ?_
      intro x hx
      have := h.arrsLE x (by
        simp only [grantArrs, hpend0, hwempty, List.map_nil, List.append_nil]
        simpa [← List.append_assoc] using hx)
      exact this.trans hnt
    · -- arrsLE
      intro a ha
      simp only [grantArrs, hpend, hwempty, List.map_nil, List.append_nil,
        ← List.append_assoc] at ha
      rcases List.mem_append.mp ha with ha | ha
      · have := h.arrsLE a (by
          simp only [grantArrs, hpend0, hwempty, List.map_nil, List.append_nil]
          simpa [← List.append_assoc] using ha)
        exact this.trans hnt
      · rcases List.mem_singleton.mp ha with rfl
        exact le_refl _
    · -- grantChain
      exact h.grantChain
    · -- grantLE
      exact fun p hp => (h.grantLE p hp).trans hnt
    · -- lenInv
      have hlen := h.lenInv
      rw [hq, List.countP_cons, List.countP_cons] at hlen
      rw [List.Perm.countP_eq _ (insertEntry_perm _ _), List.countP_cons,
        List.Perm.countP_eq _ (insertEntry_perm _ _), List.countP_cons]
      simpa [isDS, isDE, hev] using hlen
    · -- busyDelivery
      have hbd := h.busyDelivery
      rw [hq, List.filterMap_cons_none hF] at hbd
      rw [filterMap_insertEntry_none (by simp [finishPend]) rest]
      exact hbd
    · -- deTime
      intro x hx oid' start d hx_ev
      rcases mem_insertEntry.mp hx with rfl | hx
      · simp at hx_ev
      · exact h.deTime x (hmem x hx) oid' start d hx_ev
    · -- dsTime
      intro x hx oid' start hx_ev
      rcases mem_insertEntry.mp hx with rfl | hx
      · simp at hx_ev
      · exact h.dsTime x (hmem x hx) oid' start hx_ev
    · -- firedChain
      exact chainLE_snoc h.firedChain (fun t ht => (h.firedLE t ht).1.trans hnt)
    · -- firedLE
      intro t ht
      rcases List.mem_append.mp ht with ht | ht
      · exact ⟨(h.firedLE t ht).1.trans hnt, (h.firedLE t ht).2⟩
      · rcases List.mem_singleton.mp ht with rfl
        exact ⟨le_refl _, hguard⟩
  · -- pool saturated: enqueue at the tail of waiters
    rw [if_neg hfree, Except.ok.injEq] at hstep
    subst hstep
    have hle := h.inUseLE
    have hfull : st.in_use = (cfg.capacity : ℤ) := by omega
    have hq0 : st.queue.filterMap activeStart = rest.filterMap activeStart := by
      rw [hq, List.filterMap_cons_none hA]
    have hpend0 : st.queue.filterMap pendingGrantArr = rest.filterMap pendingGrantArr := by
      rw [hq, List.filterMap_cons_none hP]
    constructor
    · -- sortedQ
      exact hpr
    · -- timesGE
      exact hge
    · -- nowLT
      exact hguard
    · -- grantedLE
      intro x hx hsome
      exact (h.grantedLE x (hmem x hx) hsome).trans hnt
    · -- countA
      have := h.countA
      rw [hq0] at this
      exact this
    · -- inUseLE
      exact h.inUseLE
    · -- waitersFull
      intro _
      exact hfull
    · -- startsLE
      intro x hx
      exact (h.startsLE x (by rw [hq0]; exact hx)).trans hnt
    · -- potential
      have hpot := h.potential
      rw [hq0] at hpot
      exact pot_advance hpot hcap hnt
    · -- arrChain
      have := h.arrChain
      simp only [grantArrs, hpend0] at this
      simp only [grantArrs, List.map_append, List.map_cons, List.map_nil,
        ← List.append_assoc]
      rw [List.append_assoc (st.grant_log.map Prod.fst)]
      refine chainLE_snoc (by simpa [← List.append_assoc] using this) ?_
      intro x hx
      have := h.arrsLE x (by
        simp only [grantArrs, hpend0]
        simpa [← List.append_assoc] using hx)
      exact this.trans hnt
    · -- arrsLE
      intro a ha
      simp only [grantArrs, List.map_append, List.map_cons, List.map_nil,
        ← List.append_assoc] at ha
      rcases List.mem_append.mp ha with ha | ha
      · have := h.arrsLE a (by
          simp only [grantArrs, hpend0]
          simpa [← List.append_assoc] using ha)
        exact this.trans hnt
      · rcases List.mem_singleton.mp ha with rfl
        exact le_refl _
    · -- grantChain
      exact h.grantChain
    · -- grantLE
      exact fun p hp => (h.grantLE p hp).trans hnt
    · -- lenInv
      have hlen := h.lenInv
      rw [hq, List.countP_cons, List.countP_cons] at hlen
      simpa [isDS, isDE, hev] using hlen
    · -- busyDelivery
      have hbd := h.busyDelivery
      rw [hq, List.filterMap_cons_none hF] at hbd
      exact hbd
    · -- deTime
      intro x hx oid' start d hx_ev
      exact h.deTime x (hmem x hx) oid' start d hx_ev
    · -- dsTime
      intro x hx oid' start hx_ev
      exact h.dsTime x (hmem x hx) oid' start hx_ev
    · -- firedChain
      exact chainLE_snoc h.firedChain (fun t ht => (h.firedLE t ht).1.trans hnt)
    · -- firedLE
      intro t ht
      rcases List.mem_append.mp ht with ht | ht
      · exact ⟨(h.firedLE t ht).1.trans hnt, (h.firedLE t ht).2⟩
      · rcases List.mem_singleton.mp ht with rfl
        exact ⟨le_refl _, hguard⟩

theorem inv_step_granted {cfg : Cfg} {s : ℕ → ℚ} {st st' : SimState}
    (h : Inv cfg st) {e : Entry} {rest : List Entry}
    (hq : st.queue = e :: rest) (hguard : e.time < SIM_TIME) {oid : ℕ} {arrival : ℚ}
    (hev : e.ev = .granted oid arrival)
    (hstep : stepE cfg s st = .ok st') : Inv cfg st' := by
  have hnt : st.now ≤ e.time := h.timesGE e (hq ▸ List.mem_cons_self e rest)
  have hpc : (e :: rest).Pairwise keyLE := hq ▸ h.sortedQ
  obtain ⟨hhead, hpr⟩ := List.pairwise_cons.mp hpc
  have hge : ∀ x ∈ rest, e.time ≤ x.time := fun x hx => keyLE_time (hhead x hx)
  have hmem : ∀ x ∈ rest, x ∈ st.queue := by
    intro x hx; rw [hq]; exact List.mem_cons_of_mem e hx
  simp only [stepE, hq] at hstep
  rw [hev] at hstep
  simp only [handle, Except.ok.injEq] at hstep
  subst hstep
  have hA : activeStart e = some e.time := by simp [activeStart, hev]
  have hP : pendingGrantArr e = some arrival := by simp [pendingGrantArr, hev]
  have hF : finishPend e = none := by simp [finishPend, hev]
  have hfmA : st.queue.filterMap activeStart = e.time :: rest.filterMap activeStart := by
    rw [hq, List.filterMap_cons_some hA]
  have hfmP : st.queue.filterMap pendingGrantArr
      = arrival :: rest.filterMap pendingGrantArr := by
    rw [hq, List.filterMap_cons_some hP]
  have hsum : ((insertEntry ⟨e.time, .deliverStart oid e.time⟩ rest).filterMap
      activeStart).sum = e.time + (rest.filterMap activeStart).sum := by
    rw [sum_filterMap_insertEntry]
    simp [List.filterMap_cons, activeStart]
  have hlength : ((insertEntry ⟨e.time, .deliverStart oid e.time⟩ rest).filterMap
      activeStart).length = (rest.filterMap activeStart).length + 1 := by
    rw [length_filterMap_insertEntry]
    simp [List.filterMap_cons, activeStart]
  have hpend : (insertEntry ⟨e.time, .deliverStart oid e.time⟩ rest).filterMap
      pendingGrantArr = rest.filterMap pendingGrantArr :=
    filterMap_insertEntry_none (by simp [pendingGrantArr]) rest
  constructor
  · -- sortedQ
    exact pairwise_insertEntry hpr
  · -- timesGE
    intro x hx
    rcases mem_insertEntry.mp hx with rfl | hx
    · simp
    · exact hge x hx
  · -- nowLT
    exact hguard
  · -- grantedLE
    intro x hx hsome
    rcases mem_insertEntry.mp hx with rfl | hx
    · rcases hsome with hs | hs <;> simp [pendingGrantArr, finishPend] at hs
    · exact (h.grantedLE x (hmem x hx) hsome).trans hnt
  · -- countA
    have := h.countA
    rw [hfmA] at this
    simp only [List.length_cons] at this
    rw [hlength]
    show st.in_use = (((rest.filterMap activeStart).length + 1 : ℕ) : ℤ)
    omega
  · -- inUseLE
    exact h.inUseLE
  · -- waitersFull
    exact h.waitersFull
  · -- startsLE
    intro x hx
    rw [(filterMap_insertEntry_perm activeStart _ _).mem_iff] at hx
    have hfm : List.filterMap activeStart (⟨e.time, .deliverStart oid e.time⟩ :: rest)
        = e.time :: rest.filterMap activeStart := by
      simp [List.filterMap_cons, activeStart]
    rw [hfm] at hx
    rcases List.mem_cons.mp hx with rfl | hx
    · exact le_refl _
    · have := h.startsLE x (by rw [hfmA]; exact List.mem_cons_of_mem _ hx)
      exact this.trans hnt
  · -- potential
    have hpot := h.potential
    rw [hfmA] at hpot
    have hcap : (st.in_use : ℚ) ≤ (cfg.capacity : ℚ) := by exact_mod_cast h.inUseLE
    have hadv := pot_advance hpot hcap hnt
    rw [hsum]
    simp only [List.sum_cons] at hadv
    linarith
  · -- arrChain
    have := h.arrChain
    simp only [grantArrs, hfmP] at this
    simp only [grantArrs, hpend, List.map_append, List.map_cons, List.map_nil]
    simpa using this
  · -- arrsLE
    intro a ha
    simp only [grantArrs, hpend, List.map_append, List.map_cons, List.map_nil] at ha
    have ha2 : a ∈ grantArrs st := by
      simp only [grantArrs, hfmP]
      rcases List.mem_append.mp ha with ha | ha
      · rcases List.mem_append.mp ha with ha | ha
        · rcases List.mem_append.mp ha with ha | ha
          · exact List.mem_append.mpr (Or.inl (List.mem_append.mpr (Or.inl ha)))
          · rcases List.mem_singleton.mp ha with rfl
            exact List.mem_append.mpr
              (Or.inl (List.mem_append.mpr (Or.inr (List.mem_cons_self _ _))))
        · exact List.mem_append.mpr
            (Or.inl (List.mem_append.mpr (Or.inr (List.mem_cons_of_mem _ ha))))
      · exact List.mem_append.mpr (Or.inr ha)
    exact (h.arrsLE a ha2).trans hnt
  · -- grantChain
    simp only [List.map_append, List.map_cons, List.map_nil]
    refine chainLE_snoc h.grantChain ?_
    intro x hx
    rcases List.mem_map.mp hx with ⟨p, hp, rfl⟩
    exact (h.grantLE p hp).trans hnt
  · -- grantLE
    intro p hp
    rcases List.mem_append.mp hp with hp | hp
    · exact (h.grantLE p hp).trans hnt
    · rcases List.mem_singleton.mp hp with rfl
      exact le_refl _
  · -- lenInv
    have hlen := h.lenInv
    rw [hq, List.countP_cons, List.countP_cons] at hlen
    rw [List.Perm.countP_eq _ (insertEntry_perm _ _), List.countP_cons,
      List.Perm.countP_eq _ (insertEntry_perm _ _), List.countP_cons]
    simp only [List.length_append, List.length_cons, List.length_nil]
    simp only [isDS, isDE, hev] at hlen ⊢
    simp at hlen ⊢
    omega
  · -- busyDelivery
    have hbd := h.busyDelivery
    rw [hq, List.filterMap_cons_none hF] at hbd
    rw [filterMap_insertEntry_none (by simp [finishPend]) rest]
    exact hbd
  · -- deTime
    intro x hx oid' start d hx_ev
    rcases mem_insertEntry.mp hx with rfl | hx
    · simp at hx_ev
    · exact h.deTime x (hmem x hx) oid' start d hx_ev
  · -- dsTime
    intro x hx oid' start hx_ev
    rcases mem_insertEntry.mp hx with rfl | hx
    · simp only [Ev.deliverStart.injEq] at hx_ev
      rw [← hx_ev.2]
    · exact h.dsTime x (hmem x hx) oid' start hx_ev
  · -- firedChain
    exact chainLE_snoc h.firedChain (fun t ht => (h.firedLE t ht).1.trans hnt)
  · -- firedLE
    intro t ht
    rcases List.mem_append.mp ht with ht | ht
    · exact ⟨(h.firedLE t ht).1.trans hnt, (h.firedLE t ht).2⟩
    · rcases List.mem_singleton.mp ht with rfl
      exact ⟨le_refl _, hguard⟩

theorem inv_step_deliverStart {cfg : Cfg} {s : ℕ → ℚ} {st st' : SimState}
    (h : Inv cfg st) {e : Entry} {rest : List Entry}
    (hq : st.queue = e :: rest) (hguard : e.time < SIM_TIME) {oid : ℕ} {start : ℚ}
    (hev : e.ev = .deliverStart oid start)
    (hstep : stepE cfg s st = .ok st') : Inv cfg st' := by
  have hnt : st.now ≤ e.time := h.timesGE e (hq ▸ List.mem_cons_self e rest)
  have hpc : (e :: rest).Pairwise keyLE := hq ▸ h.sortedQ
  obtain ⟨hhead, hpr⟩ := List.pairwise_cons.mp hpc
  have hge : ∀ x ∈ rest, e.time ≤ x.time := fun x hx => keyLE_time (hhead x hx)
  have hmem : ∀ x ∈ rest, x ∈ st.queue := by
    intro x hx; rw [hq]; exact List.mem_cons_of_mem e hx
  have hds : e.time = start :=
    h.dsTime e (hq ▸ List.mem_cons_self e rest) oid start hev
  simp only [stepE, hq] at hstep
  rw [hev] at hstep
  simp only [handle] at hstep
  by_cases hm : cfg.delivery_time_mean = 0
  · simp [hm] at hstep
  by_cases hneg : s st.idx < 0
  · simp [hm, hneg] at hstep
  have hd0 : 0 ≤ s st.idx := not_lt.mp hneg
  simp only [if_neg hm, if_neg hneg, Except.ok.injEq] at hstep
  subst hstep
  have hA : activeStart e = some start := by simp [activeStart, hev]
  have hfmA : st.queue.filterMap activeStart = start :: rest.filterMap activeStart := by
    rw [hq, List.filterMap_cons_some hA]
  have hP : pendingGrantArr e = none := by simp [pendingGrantArr, hev]
  have hF : finishPend e = none := by simp [finishPend, hev]
  have hsum : ((insertEntry ⟨e.time + s st.idx, .deliverEnd oid start (s st.idx)⟩
      rest).filterMap activeStart).sum = start + (rest.filterMap activeStart).sum := by
    rw [sum_filterMap_insertEntry]
    simp [List.filterMap_cons, activeStart]
  have hlength : ((insertEntry ⟨e.time + s st.idx, .deliverEnd oid start (s st.idx)⟩
      rest).filterMap activeStart).length = (rest.filterMap activeStart).length + 1 := by
    rw [length_filterMap_insertEntry]
    simp [List.filterMap_cons, activeStart]
  constructor
  · -- sortedQ
    exact pairwise_insertEntry hpr
  · -- timesGE
    intro x hx
    rcases mem_insertEntry.mp hx with rfl | hx
    · simpa using by linarith
    · exact hge x hx
  · -- nowLT
    exact hguard
  · -- grantedLE
    intro x hx hsome
    rcases mem_insertEntry.mp hx with rfl | hx
    · rcases hsome with hs | hs <;> simp [pendingGrantArr, finishPend] at hs
    · exact (h.grantedLE x (hmem x hx) hsome).trans hnt
  · -- countA
    have := h.countA
    rw [hfmA] at this
    simp only [List.length_cons] at this
    rw [hlength]
    show st.in_use = (((rest.filterMap activeStart).length + 1 : ℕ) : ℤ)
    omega
  · -- inUseLE
    exact h.inUseLE
  · -- waitersFull
    exact h.waitersFull
  · -- startsLE
    intro x hx
    rw [(filterMap_insertEntry_perm activeStart _ _).mem_iff] at hx
    have hfm : List.filterMap activeStart
        (⟨e.time + s st.idx, .deliverEnd oid start (s st.idx)⟩ :: rest)
        = start :: rest.filterMap activeStart := by
      simp [List.filterMap_cons, activeStart]
    rw [hfm] at hx
    rcases List.mem_cons.mp hx with rfl | hx
    · rw [← hds]
    · have := h.startsLE x (by rw [hfmA]; exact List.mem_cons_of_mem _ hx)
      exact this.trans hnt
  · -- potential
    have hpot := h.potential
    rw [hfmA] at hpot
    have hcap : (st.in_use : ℚ) ≤ (cfg.capacity : ℚ) := by exact_mod_cast h.inUseLE
    have hadv := pot_advance hpot hcap hnt
    rw [hsum]
    simp only [List.sum_cons] at hadv
    linarith
  · -- arrChain
    have := h.arrChain
    simp only [grantArrs] at this ⊢
    rw [filterMap_insertEntry_none (by simp [pendingGrantArr]) rest]
    rw [hq, List.filterMap_cons_none hP] at this
    exact this
  · -- arrsLE
    intro a ha
    simp only [grantArrs] at ha
    rw [filterMap_insertEntry_none (by simp [pendingGrantArr]) rest] at ha
    have ha2 : a ∈ grantArrs st := by
      simp only [grantArrs]
      rw [hq, List.filterMap_cons_none hP]
      exact ha
    exact (h.arrsLE a ha2).trans hnt
  · -- grantChain
    exact h.grantChain
  · -- grantLE
    exact fun p hp => (h.grantLE p hp).trans hnt
  · -- lenInv
    have hlen := h.lenInv
    rw [hq, List.countP_cons, List.countP_cons] at hlen
    rw [List.Perm.countP_eq _ (insertEntry_perm _ _), List.countP_cons,
      List.Perm.countP_eq _ (insertEntry_perm _ _), List.countP_cons]
    simp only [isDS, isDE, hev] at hlen ⊢
    simp at hlen ⊢
    omega
  · -- busyDelivery
    have hbd := h.busyDelivery
    rw [hq, List.filterMap_cons_none hF] at hbd
    rw [filterMap_insertEntry_none (by simp [finishPend]) rest]
    exact hbd
  · -- deTime
    intro x hx oid' start' d' hx_ev
    rcases mem_insertEntry.mp hx with rfl | hx
    · simp only [Ev.deliverEnd.injEq] at hx_ev
      rw [← hx_ev.2.1, ← hx_ev.2.2, ← hds]
    · exact h.deTime x (hmem x hx) oid' start' d' hx_ev
  · -- dsTime
    intro x hx oid' start' hx_ev
    rcases mem_insertEntry.mp hx with rfl | hx
    · simp at hx_ev
    · exact h.dsTime x (hmem x hx) oid' start' hx_ev
  · -- firedChain
    exact chainLE_snoc h.firedChain (fun t ht => (h.firedLE t ht).1.trans hnt)
  · -- firedLE
    intro t ht
    rcases List.mem_append.mp ht with ht | ht
    · exact ⟨(h.firedLE t ht).1.trans hnt, (h.firedLE t ht).2⟩
    · rcases List.mem_singleton.mp ht with rfl
      exact ⟨le_refl _, hguard⟩

theorem inv_step_deliverEnd {cfg : Cfg} {s : ℕ → ℚ} {st st' : SimState}
    (h : Inv cfg st) {e : Entry} {rest : List Entry}
    (hq : st.queue = e :: rest) (hguard : e.time < SIM_TIME)
    {oid : ℕ} {start d : ℚ}
    (hev : e.ev = .deliverEnd oid start d)
    (hstep : stepE cfg s st = .ok st') : Inv cfg st' := by
  have hnt : st.now ≤ e.time := h.timesGE e (hq ▸ List.mem_cons_self e rest)
  have hpc : (e :: rest).Pairwise keyLE := hq ▸ h.sortedQ
  obtain ⟨hhead, hpr⟩ := List.pairwise_cons.mp hpc
  have hge : ∀ x ∈ rest, e.time ≤ x.time := fun x hx => keyLE_time (hhead x hx)
  have hmem : ∀ x ∈ rest, x ∈ st.queue := by
    intro x hx; rw [hq]; exact List.mem_cons_of_mem e hx
  have hde : e.time = start + d :=
    h.deTime e (hq ▸ List.mem_cons_self e rest) oid start d hev
  simp only [stepE, hq] at hstep
  rw [hev] at hstep
  simp only [handle, Except.ok.injEq] at hstep
  subst hstep
  have hA : activeStart e = some start := by simp [activeStart, hev]
  have hfmA : st.queue.filterMap activeStart = start :: rest.filterMap activeStart := by
    rw [hq, List.filterMap_cons_some hA]
  have hP : pendingGrantArr e = none := by simp [pendingGrantArr, hev]
  have hF : finishPend e = none := by simp [finishPend, hev]
  have hsum : ((insertEntry ⟨e.time, .orderFinish oid start⟩ rest).filterMap
      activeStart).sum = start + (rest.filterMap activeStart).sum := by
    rw [sum_filterMap_insertEntry]
    simp [List.filterMap_cons, activeStart]
  have hlength : ((insertEntry ⟨e.time, .orderFinish oid start⟩ rest).filterMap
      activeStart).length = (rest.filterMap activeStart).length + 1 := by
    rw [length_filterMap_insertEntry]
    simp [List.filterMap_cons, activeStart]
  have hfsum : ((insertEntry ⟨e.time, .orderFinish oid start⟩ rest).filterMap
      finishPend).sum = (e.time - start) + (rest.filterMap finishPend).sum := by
    rw [sum_filterMap_insertEntry]
    simp [List.filterMap_cons, finishPend]
  constructor
  · -- sortedQ
    exact pairwise_insertEntry hpr
  · -- timesGE
    intro x hx
    rcases mem_insertEntry.mp hx with rfl | hx
    · simp
    · exact hge x hx
  · -- nowLT
    exact hguard
  · -- grantedLE
    intro x hx hsome
    rcases mem_insertEntry.mp hx with rfl | hx
    · simp
    · exact (h.grantedLE x (hmem x hx) hsome).trans hnt
  · -- countA
    have := h.countA
    rw [hfmA] at this
    simp only [List.length_cons] at this
    rw [hlength]
    show st.in_use = (((rest.filterMap activeStart).length + 1 : ℕ) : ℤ)
    omega
  · -- inUseLE
    exact h.inUseLE
  · -- waitersFull
    exact h.waitersFull
  · -- startsLE
    intro x hx
    rw [(filterMap_insertEntry_perm activeStart _ _).mem_iff] at hx
    have hfm : List.filterMap activeStart (⟨e.time, .orderFinish oid start⟩ :: rest)
        = start :: rest.filterMap activeStart := by
      simp [List.filterMap_cons, activeStart]
    rw [hfm] at hx
    rcases List.mem_cons.mp hx with rfl | hx
    · exact (h.startsLE x (by rw [hfmA]; exact List.mem_cons_self _ _)).trans hnt
    · have := h.startsLE x (by rw [hfmA]; exact List.mem_cons_of_mem _ hx)
      exact this.trans hnt
  · -- potential
    have hpot := h.potential
    rw [hfmA] at hpot
    have hcap : (st.in_use : ℚ) ≤ (cfg.capacity : ℚ) := by exact_mod_cast h.inUseLE
    have hadv := pot_advance hpot hcap hnt
    rw [hsum]
    simp only [List.sum_cons] at hadv
    linarith
  · -- arrChain
    have := h.arrChain
    simp only [grantArrs] at this ⊢
    rw [filterMap_insertEntry_none (by simp [pendingGrantArr]) rest]
    rw [hq, List.filterMap_cons_none hP] at this
    exact this
  · -- arrsLE
    intro a ha
    simp only [grantArrs] at ha
    rw [filterMap_insertEntry_none (by simp [pendingGrantArr]) rest] at ha
    have ha2 : a ∈ grantArrs st := by
      simp only [grantArrs]
      rw [hq, List.filterMap_cons_none hP]
      exact ha
    exact (h.arrsLE a ha2).trans hnt
  · -- grantChain
    exact h.grantChain
  · -- grantLE
    exact fun p hp => (h.grantLE p hp).trans hnt
  · -- lenInv
    have hlen := h.lenInv
    rw [hq, List.countP_cons, List.countP_cons] at hlen
    rw [List.Perm.countP_eq _ (insertEntry_perm _ _), List.countP_cons,
      List.Perm.countP_eq _ (insertEntry_perm _ _), List.countP_cons]
    simp only [isDS, isDE, hev, List.length_append, List.length_cons, List.length_nil]
      at hlen ⊢
    simp at hlen ⊢
    omega
  · -- busyDelivery
    have hbd := h.busyDelivery
    rw [hq, List.filterMap_cons_none hF] at hbd
    rw [hfsum]
    simp only [List.sum_append, List.sum_cons, List.sum_nil]
    rw [hbd]
    have : d = e.time - start := by linarith
    rw [this]
    ring
  · -- deTime
    intro x hx oid' start' d' hx_ev
    rcases mem_insertEntry.mp hx with rfl | hx
    · simp at hx_ev
    · exact h.deTime x (hmem x hx) oid' start' d' hx_ev
  · -- dsTime
    intro x hx oid' start' hx_ev
    rcases mem_insertEntry.mp hx with rfl | hx
    · simp at hx_ev
    · exact h.dsTime x (hmem x hx) oid' start' hx_ev
  · -- firedChain
    exact chainLE_snoc h.firedChain (fun t ht => (h.firedLE t ht).1.trans hnt)
  · -- firedLE
    intro t ht
    rcases List.mem_append.mp ht with ht | ht
    · exact ⟨(h.firedLE t ht).1.trans hnt, (h.firedLE t ht).2⟩
    · rcases List.mem_singleton.mp ht with rfl
      exact ⟨le_refl _, hguard⟩

theorem inv_step_orderFinish {cfg : Cfg} {s : ℕ → ℚ} {st st' : SimState}
    (h : Inv cfg st) {e : Entry} {rest : List Entry}
    (hq : st.queue = e :: rest) (hguard : e.time < SIM_TIME)
    {oid : ℕ} {start : ℚ}
    (hev : e.ev = .orderFinish oid start)
    (hstep : stepE cfg s st = .ok st') : Inv cfg st' := by
  have hnt : st.now ≤ e.time := h.timesGE e (hq ▸ List.mem_cons_self e rest)
  have hpc : (e :: rest).Pairwise keyLE := hq ▸ h.sortedQ
  obtain ⟨hhead, hpr⟩ := List.pairwise_cons.mp hpc
  have hge : ∀ x ∈ rest, e.time ≤ x.time := fun x hx => keyLE_time (hhead x hx)
  have hmem : ∀ x ∈ rest, x ∈ st.queue := by
    intro x hx; rw [hq]; exact List.mem_cons_of_mem e hx
  have hA : activeStart e = some start := by simp [activeStart, hev]
  have hfmA : st.queue.filterMap activeStart = start :: rest.filterMap activeStart := by
    rw [hq, List.filterMap_cons_some hA]
  have hP : pendingGrantArr e = none := by simp [pendingGrantArr, hev]
  have hFs : finishPend e = some (e.time - start) := by simp [finishPend, hev]
  have hfmF : st.queue.filterMap finishPend
      = (e.time - start) :: rest.filterMap finishPend := by
    rw [hq, List.filterMap_cons_some hFs]
  have hstartLE : start ≤ st.now :=
    h.startsLE start (by rw [hfmA]; exact List.mem_cons_self _ _)
  have hcap : (st.in_use : ℚ) ≤ (cfg.capacity : ℚ) := by exact_mod_cast h.inUseLE
  have hcount := h.countA
  rw [hfmA] at hcount
  simp only [List.length_cons] at hcount
  have hpotA := h.potential
  rw [hfmA] at hpotA
  have hadv := pot_advance hpotA hcap hnt
  simp only [List.sum_cons] at hadv
  have hbd := h.busyDelivery
  rw [hfmF] at hbd
  simp only [List.sum_cons] at hbd
  simp only [stepE, hq] at hstep
  rw [hev] at hstep
  simp only [handle] at hstep
  rcases hw : st.waiters with _ | ⟨⟨oid2, arr2⟩, rest2⟩
  · -- no waiter: plain release
    rw [hw] at hstep
    simp only [Except.ok.injEq] at hstep
    subst hstep
    constructor
    · -- sortedQ
      exact hpr
    · -- timesGE
      exact hge
    · -- nowLT
      exact hguard
    · -- grantedLE
      intro x hx hsome
      exact (h.grantedLE x (hmem x hx) hsome).trans hnt
    · -- countA
      show st.in_use - 1 = ((rest.filterMap activeStart).length : ℤ)
      omega
    · -- inUseLE
      have := h.inUseLE
      show st.in_use - 1 ≤ (cfg.capacity : ℤ)
      omega
    · -- waitersFull
      intro hne
      simp at hne
    · -- startsLE
      intro x hx
      have := h.startsLE x (by rw [hfmA]; exact List.mem_cons_of_mem _ hx)
      exact this.trans hnt
    · -- potential
      show st.busy_time + (e.time - start) + ((st.in_use - 1 : ℤ) : ℚ) * e.time -
          (rest.filterMap activeStart).sum ≤ (cfg.capacity : ℚ) * e.time
      push_cast
      linarith
    · -- arrChain
      have := h.arrChain
      simp only [grantArrs, hw] at this ⊢
      rw [hq, List.filterMap_cons_none hP] at this
      exact this
    · -- arrsLE
      intro a ha
      simp only [grantArrs, hw] at ha
      have ha2 : a ∈ grantArrs st := by
        simp only [grantArrs, hw]
        rw [hq, List.filterMap_cons_none hP]
        exact ha
      exact (h.arrsLE a ha2).trans hnt
    · -- grantChain
      exact h.grantChain
    · -- grantLE
      exact fun p hp => (h.grantLE p hp).trans hnt
    · -- lenInv
      have hlen := h.lenInv
      rw [hq, List.countP_cons, List.countP_cons] at hlen
      simpa [isDS, isDE, hev] using hlen
    · -- busyDelivery
      show st.delivery_times.sum = st.busy_time + (e.time - start) +
          (rest.filterMap finishPend).sum
      linarith
    · -- deTime
      intro x hx oid' start' d' hx_ev
      exact h.deTime x (hmem x hx) oid' start' d' hx_ev
    · -- dsTime
      intro x hx oid' start' hx_ev
      exact h.dsTime x (hmem x hx) oid' start' hx_ev
    · -- firedChain
      exact chainLE_snoc h.firedChain (fun t ht => (h.firedLE t ht).1.trans hnt)
    · -- firedLE
      intro t ht
      rcases List.mem_append.mp ht with ht | ht
      · exact ⟨(h.firedLE t ht).1.trans hnt, (h.firedLE t ht).2⟩
      · rcases List.mem_singleton.mp ht with rfl
        exact ⟨le_refl _, hguard⟩
  · -- direct hand-off to the head waiter
    rw [hw] at hstep
    simp only [Except.ok.injEq] at hstep
    subst hstep
    have hkey : ∀ x ∈ rest, (pendingGrantArr x).isSome →
        keyLE x ⟨e.time, .granted oid2 arr2⟩ := by
      intro x hx hsome
      obtain ⟨o, a, hxev⟩ := pendingGrantArr_isSome hsome
      have h1 : x.time ≤ st.now := h.grantedLE x (hmem x hx) (Or.inl hsome)
      have h2 : x.time = e.time := le_antisymm (h1.trans hnt) (hge x hx)
      exact Or.inr ⟨h2, by simp [hxev, Ev.prio]⟩
    have hpend : (insertEntry ⟨e.time, .granted oid2 arr2⟩ rest).filterMap
        pendingGrantArr = rest.filterMap pendingGrantArr ++ [arr2] := by
      rw [filterMap_insertEntry_append hpr hkey]
      simp [pendingGrantArr]
    have hsum : ((insertEntry ⟨e.time, .granted oid2 arr2⟩ rest).filterMap
        activeStart).sum = e.time + (rest.filterMap activeStart).sum := by
      rw [sum_filterMap_insertEntry]
      simp [List.filterMap_cons, activeStart]
    have hlength : ((insertEntry ⟨e.time, .granted oid2 arr2⟩ rest).filterMap
        activeStart).length = (rest.filterMap activeStart).length + 1 := by
      rw [length_filterMap_insertEntry]
      simp [List.filterMap_cons, activeStart]
    constructor
    · -- sortedQ
      exact pairwise_insertEntry hpr
    · -- timesGE
      intro x hx
      rcases mem_insertEntry.mp hx with rfl | hx
      · simp
      · exact hge x hx
    · -- nowLT
      exact hguard
    · -- grantedLE
      intro x hx hsome
      rcases mem_insertEntry.mp hx with rfl | hx
      · simp
      · exact (h.grantedLE x (hmem x hx) hsome).trans hnt
    · -- countA
      rw [hlength]
      show st.in_use - 1 + 1 = (((rest.filterMap activeStart).length + 1 : ℕ) : ℤ)
      omega
    · -- inUseLE
      have := h.inUseLE
      show st.in_use - 1 + 1 ≤ (cfg.capacity : ℤ)
      omega
    · -- waitersFull
      intro _
      have := h.waitersFull (by rw [hw]; exact List.cons_ne_nil _ _)
      show st.in_use - 1 + 1 = (cfg.capacity : ℤ)
      omega
    · -- startsLE
      intro x hx
      rw [(filterMap_insertEntry_perm activeStart _ _).mem_iff] at hx
      have hfm : List.filterMap activeStart (⟨e.time, .granted oid2 arr2⟩ :: rest)
          = e.time :: rest.filterMap activeStart := by
        simp [List.filterMap_cons, activeStart]
      rw [hfm] at hx
      rcases List.mem_cons.mp hx with rfl | hx
      · exact le_refl _
      · have := h.startsLE x (by rw [hfmA]; exact List.mem_cons_of_mem _ hx)
        exact this.trans hnt
    · -- potential
      rw [hsum]
      show st.busy_time + (e.time - start) + ((st.in_use - 1 + 1 : ℤ) : ℚ) * e.time -
          (e.time + (rest.filterMap activeStart).sum) ≤ (cfg.capacity : ℚ) * e.time
      push_cast
      linarith
    · -- arrChain
      have := h.arrChain
      simp only [grantArrs, hw, List.map_cons] at this
      rw [hq, List.filterMap_cons_none hP] at this
      simp only [grantArrs, hpend, List.map_cons]
      simpa using this
    · -- arrsLE
      intro a ha
      simp only [grantArrs, hpend, List.map_cons] at ha
      have ha2 : a ∈ grantArrs st := by
        simp only [grantArrs, hw, List.map_cons]
        rw [hq, List.filterMap_cons_none hP]
        simp only [List.mem_append, List.mem_cons, List.mem_singleton] at ha ⊢
        tauto
      exact (h.arrsLE a ha2).trans hnt
    · -- grantChain
      exact h.grantChain
    · -- grantLE
      exact fun p hp => (h.grantLE p hp).trans hnt
    · -- lenInv
      have hlen := h.lenInv
      rw [hq, List.countP_cons, List.countP_cons] at hlen
      rw [List.Perm.countP_eq _ (insertEntry_perm _ _), List.countP_cons,
        List.Perm.countP_eq _ (insertEntry_perm _ _), List.countP_cons]
      simpa [isDS, isDE, hev] using hlen
    · -- busyDelivery
      rw [filterMap_insertEntry_none (by simp [finishPend]) rest]
      show st.delivery_times.sum = st.busy_time + (e.time - start) +
          (rest.filterMap finishPend).sum
      linarith
    · -- deTime
      intro x hx oid' start' d' hx_ev
      rcases mem_insertEntry.mp hx with rfl | hx
      · simp at hx_ev
      · exact h.deTime x (hmem x hx) oid' start' d' hx_ev
    · -- dsTime
      intro x hx oid' start' hx_ev
      rcases mem_insertEntry.mp hx with rfl | hx
      · simp at hx_ev
      · exact h.dsTime x (hmem x hx) oid' start' hx_ev
    · -- firedChain
      exact chainLE_snoc h.firedChain (fun t ht => (h.firedLE t ht).1.trans hnt)
    · -- firedLE
      intro t ht
      rcases List.mem_append.mp ht with ht | ht
      · exact ⟨(h.firedLE t ht).1.trans hnt, (h.firedLE t ht).2⟩
      · rcases List.mem_singleton.mp ht with rfl
        exact ⟨le_refl _, hguard⟩

/-- One scheduler step preserves the invariant. -/
theorem inv_stepE {cfg : Cfg} {s : ℕ → ℚ} {st st' : SimState}
    (h : Inv cfg st) {e : Entry} {rest : List Entry}
    (hq : st.queue = e :: rest) (hguard : e.time < SIM_TIME)
    (hstep : stepE cfg s st = .ok st') : Inv cfg st' := by
  cases hev : e.ev with
  | arriveInit => exact inv_step_arriveInit h hq hguard hev hstep
  | arrive oid => exact inv_step_arrive h hq hguard hev hstep
  | orderStart oid => exact inv_step_orderStart h hq hguard hev hstep
  | granted oid arrival => exact inv_step_granted h hq hguard hev hstep
  | deliverStart oid start => exact inv_step_deliverStart h hq hguard hev hstep
  | deliverEnd oid start d => exact inv_step_deliverEnd h hq hguard hev hstep
  | orderFinish oid start => exact inv_step_orderFinish h hq hguard hev hstep

/-- The event loop preserves the invariant for any amount of fuel. -/
theorem inv_runE {cfg : Cfg} {s : ℕ → ℚ} :
    ∀ {n : ℕ} {st st' : SimState}, Inv cfg st → runE cfg s n st = .ok st' →
      Inv cfg st' := by
  intro n
  induction n with
  | zero =>
      intro st st' h hr
      cases hr
      exact h
  | succ n ih =>
      intro st st' h hr
      cases hq : st.queue with
      | nil =>
          simp only [runE, hq] at hr
          cases hr
          exact h
      | cons e rest =>
          simp only [runE, hq] at hr
          by_cases hguard : e.time < SIM_TIME
          · rw [if_pos hguard] at hr
            cases hstep : stepE cfg s st with
            | error err => rw [hstep] at hr; simp [Except.bind] at hr
            | ok st2 =>
                rw [hstep] at hr
                simp only [Except.bind] at hr
                exact ih (inv_stepE h hq hguard hstep) hr
          · rw [if_neg hguard] at hr
            cases hr
            exact h

/-- Every state a run can reach from the initial state satisfies the
invariant. -/
theorem inv_run {cfg : Cfg} {s : ℕ → ℚ} {n : ℕ} {st' : SimState}
    (hr : runE cfg s n initState = .ok st') : Inv cfg st' :=
  inv_runE (inv_init cfg) hr

theorem round2_zero : round2 0 = 0 := by with_unfolding_all decide

/-! ### Claim C1 -/

/-- C1, counterexample: with one rider, first gap 1 and first delivery
duration 300, the single order is granted at t=1 (one wait sample) but is
still in service at the horizon, so no delivery sample exists and
orders_completed = 0: the claimed equality of the three counts fails. -/
theorem C1_cex :
    (runE cfgA sA 20 initState).map
      (fun st => (st.wait_times.length, st.delivery_times.length)) = .ok (1, 0) ∧
    (run_simulation 20 1 (6 / 10) 15 sA).map (fun m => m.orders_completed) = .ok 0 ∧
    (1 : ℕ) ≠ 0 := by
  refine ⟨by with_unfolding_all rfl, by with_unfolding_all rfl, by decide⟩

/-- C1, amended: at the end of every run, orders_completed equals the
length of the service-duration samples, which is at most (not equal to)
the length of the wait-duration samples, and busy_time_total is at most
horizon * capacity. -/
theorem C1_conservation (fuel : ℕ) (cfg : Cfg) (s : ℕ → ℚ) (st' : SimState)
    (hok : runE cfg s fuel initState = .ok st') :
    st'.delivery_times.length ≤ st'.wait_times.length ∧
    st'.busy_time ≤ SIM_TIME * (cfg.capacity : ℚ) ∧
    ∀ r q, (summarize r q st').orders_completed = st'.delivery_times.length := by
  have hinv := inv_run hok
  refine ⟨?_, ?_, fun r q => rfl⟩
  · have := hinv.lenInv
    omega
  · have hpot := hinv.potential
    have hsumle : (st'.queue.filterMap activeStart).sum ≤
        ((st'.queue.filterMap activeStart).length : ℚ) * st'.now := by
      calc (st'.queue.filterMap activeStart).sum
          ≤ (st'.queue.filterMap activeStart).length • st'.now :=
            List.sum_le_card_nsmul _ _ hinv.startsLE
        _ = ((st'.queue.filterMap activeStart).length : ℚ) * st'.now := by
            rw [nsmul_eq_mul]
    have hcount : (st'.in_use : ℚ) = ((st'.queue.filterMap activeStart).length : ℚ) := by
      exact_mod_cast congrArg (fun z : ℤ => (z : ℚ)) hinv.countA
    have hcap0 : (0 : ℚ) ≤ (cfg.capacity : ℚ) := by positivity
    have hnow := hinv.nowLT.le
    have hUn : (st'.in_use : ℚ) * st'.now =
        ((st'.queue.filterMap activeStart).length : ℚ) * st'.now := by rw [hcount]
    have hCS := mul_le_mul_of_nonneg_left hnow hcap0
    linarith

/-- C1 witness: the amended conservation laws evaluated on a concrete
finished run. -/
theorem C1_conservation_witness :
    (okState (runE cfgA sA 20 initState)).delivery_times.length ≤
      (okState (runE cfgA sA 20 initState)).wait_times.length ∧
    (okState (runE cfgA sA 20 initState)).busy_time ≤ SIM_TIME * (cfgA.capacity : ℚ) ∧
    (summarize 1 (6 / 10) (okState (runE cfgA sA 20 initState))).orders_completed =
      (okState (runE cfgA sA 20 initState)).delivery_times.length := by
  have h := C1_conservation 20 cfgA sA (okState (runE cfgA sA 20 initState))
    (by with_unfolding_all rfl)
  exact ⟨h.1, h.2.1, h.2.2 1 (6 / 10)⟩

/-! ### Claim C2 -/

/-- C2: FIFO fairness of the rider pool. In the chronological grant log
(arrival_time, grant_time), any order that arrived strictly earlier than
another is granted no later: a later-arriving request is never granted
before an earlier-arriving one. -/
theorem C2_fifo (fuel : ℕ) (cfg : Cfg) (s : ℕ → ℚ) (st' : SimState)
    (hok : runE cfg s fuel initState = .ok st')
    (i j : Fin st'.grant_log.length)
    (hij : (st'.grant_log.get i).1 < (st'.grant_log.get j).1) :
    (st'.grant_log.get i).2 ≤ (st'.grant_log.get j).2 := by
  have hinv := inv_run hok
  have harr : List.Pairwise (· ≤ ·) (st'.grant_log.map Prod.fst) := by
    have hch := hinv.arrChain
    unfold grantArrs at hch
    exact List.chain'_iff_pairwise.mp hch.left_of_append.left_of_append
  have hsnd : List.Pairwise (· ≤ ·) (st'.grant_log.map Prod.snd) :=
    List.chain'_iff_pairwise.mp hinv.grantChain
  rcases lt_trichotomy (i : ℕ) (j : ℕ) with hlt | heq | hgt
  · have := List.pairwise_iff_get.mp hsnd
      ⟨i, by simp [List.length_map]⟩ ⟨j, by simp [List.length_map]⟩ hlt
    simpa [List.get_eq_getElem, List.getElem_map] using this
  · have hijeq : i = j := Fin.ext heq
    rw [hijeq] at hij
    exact absurd hij (lt_irrefl _)
  · have := List.pairwise_iff_get.mp harr
      ⟨j, by simp [List.length_map]⟩ ⟨i, by simp [List.length_map]⟩ hgt
    have h2 : (st'.grant_log.get j).1 ≤ (st'.grant_log.get i).1 := by
      simpa [List.get_eq_getElem, List.getElem_map] using this
    exact absurd hij (not_lt.mpr h2)

/-- C2 witness: in the two-order run over stream sB, order 1 arrives at 1
and order 2 at 2; order 1 is granted at 1, order 2 at 2.125. -/
theorem C2_fifo_witness :
    (okState (runE cfgA sB 40 initState)).grant_log = [(1, 1), (2, 17 / 8)] ∧
    ((okState (runE cfgA sB 40 initState)).grant_log.get
        ⟨0, by with_unfolding_all decide⟩).2 ≤
      ((okState (runE cfgA sB 40 initState)).grant_log.get
        ⟨1, by with_unfolding_all decide⟩).2 := by
  refine ⟨by with_unfolding_all rfl, ?_⟩
  exact C2_fifo 40 cfgA sB (okState (runE cfgA sB 40 initState))
    (by with_unfolding_all rfl) _ _ (by with_unfolding_all decide)

/-! ### Claim C3 -/

/-- C3: the resource-pool invariant holds at every instant of every run
(every fuel value exposes one intermediate state, so this quantifies over
every state every acquire and release passes through): 0 <= in_use <=
capacity, and the waiters queue is non-empty only when in_use = capacity. -/
theorem C3_resource_invariant (fuel : ℕ) (cfg : Cfg) (s : ℕ → ℚ) (st' : SimState)
    (hok : runE cfg s fuel initState = .ok st') :
    0 ≤ st'.in_use ∧ st'.in_use ≤ (cfg.capacity : ℤ) ∧
      (st'.waiters ≠ [] → st'.in_use = (cfg.capacity : ℤ)) := by
  have hinv := inv_run hok
  refine ⟨?_, hinv.inUseLE, hinv.waitersFull⟩
  rw [hinv.countA]
  exact Int.ofNat_nonneg _

/-- C3 witness: the invariant evaluated after a saturated run (stream sB,
one rider, order 2 had to queue). -/
theorem C3_resource_invariant_witness :
    0 ≤ (okState (runE cfgA sB 17 initState)).in_use ∧
    (okState (runE cfgA sB 17 initState)).in_use ≤ (cfgA.capacity : ℤ) ∧
    ((okState (runE cfgA sB 17 initState)).waiters ≠ [] →
      (okState (runE cfgA sB 17 initState)).in_use = (cfgA.capacity : ℤ)) :=
  C3_resource_invariant 17 cfgA sB _ (by with_unfolding_all rfl)

/-! ### Claim C4 -/

/-- C4, counterexample: over stream sB the exact mean wait is 1/16, but
run_simulation returns 3/50 = round(0.0625, 2): the returned field does
not equal the unrounded reduction, because the core itself rounds. -/
theorem C4_cex :
    (runE cfgA sB 40 initState).map (fun st => meanOrZero st.wait_times) =
      .ok (1 / 16) ∧
    (run_simulation 40 1 (6 / 10) 15 sB).map (fun m => m.avg_wait_minutes) =
      .ok (3 / 50) ∧
    (3 / 50 : ℚ) ≠ 1 / 16 := by
  refine ⟨by with_unfolding_all rfl, by with_unfolding_all rfl,
    by with_unfolding_all decide⟩

/-- C4, amended: run_simulation returns exactly the spec's pure reduction
of the final accumulator with two-decimal rounding applied by the core to
the four real-valued fields (not by the caller). -/
theorem C4_reduction (fuel : ℕ) (num_riders : ℤ) (order_rate mean : ℚ)
    (s : ℕ → ℚ) (st' : SimState) (hpos : 0 < num_riders)
    (hok : runE ⟨num_riders.toNat, order_rate, mean⟩ s fuel initState = .ok st') :
    run_simulation fuel num_riders order_rate mean s =
      .ok (roundFields (specSummary num_riders order_rate st')) := by
  unfold run_simulation
  rw [if_neg (not_le.mpr hpos), hok]
  rfl

/-- C4 witness: the rounded reduction on the concrete sB run. -/
theorem C4_reduction_witness :
    run_simulation 40 1 (6 / 10) 15 sB =
      .ok (roundFields (specSummary 1 (6 / 10) (okState (runE cfgA sB 40 initState)))) :=
  C4_reduction 40 1 (6 / 10) 15 sB _ (by decide) (by with_unfolding_all rfl)

/-! ### Claim C5 -/

/-- C5: determinism. Calling run_simulation twice in sequence with the
same arguments yields bit-identical results (and PRNG states), because
each call begins by reseeding the module generator with the constant
RANDOM_SEED: the second call's incoming generator state, whatever the
first call left there, is discarded. -/
theorem C5_determinism (mt : ℕ → ℕ → ℚ) (fuel : ℕ) (r : ℤ) (q m : ℚ)
    (g : RandomState) :
    run_simulation_proc mt fuel r q m
      (run_simulation_proc mt fuel r q m g).2 =
    run_simulation_proc mt fuel r q m g := rfl

/-! ### Claim C6 -/

/-- C6, counterexample: with a positive rider count and arrival_rate 0,
run_simulation raises ZeroDivisionError (from expovariate inside the
event loop), not the InvalidConfig the claim requires; no InvalidConfig
check exists in the code. -/
theorem C6_cex :
    run_simulation 5 1 0 15 sBig = .error .zeroDivisionError ∧
    run_simulation 5 1 0 15 sBig ≠ .error .invalidConfig := by
  have h1 : run_simulation 5 1 0 15 sBig = .error .zeroDivisionError := by
    with_unfolding_all rfl
  refine ⟨h1, ?_⟩
  intro h
  rw [h1] at h
  simp at h

/-- C6, amended: run_simulation performs no InvalidConfig validation.
A non-positive rider count raises the resource library's ValueError
(before the event loop); with positive riders, arrival_rate = 0 raises
ZeroDivisionError at the first draw inside the run; and a run whose first
interarrival gap already reaches the horizon completes zero orders and
still returns a well-formed record with zero means, zero utilization and
zero completed orders rather than failing. -/
theorem C6_error_behavior :
    (∀ (fuel : ℕ) (r : ℤ) (q m : ℚ) (s : ℕ → ℚ), r ≤ 0 →
      run_simulation fuel r q m s = .error .valueError) ∧
    (∀ (fuel : ℕ) (r : ℤ) (m : ℚ) (s : ℕ → ℚ), 0 < r →
      run_simulation (fuel + 1) r 0 m s = .error .zeroDivisionError) ∧
    (∀ (fuel : ℕ) (r : ℤ) (q m : ℚ) (s : ℕ → ℚ), 0 < r → q ≠ 0 →
      SIM_TIME ≤ s 0 →
      run_simulation fuel r q m s = .ok ⟨r, round2 q, 0, 0, 0, 0⟩) := by
  refine ⟨?_, ?_, ?_⟩
  · intro fuel r q m s hr
    unfold run_simulation
    rw [if_pos hr]
  · intro fuel r m s hr
    unfold run_simulation
    rw [if_neg (not_le.mpr hr)]
    have hstep : stepE ⟨r.toNat, 0, m⟩ s initState = .error .zeroDivisionError := by
      simp [stepE, initState, handle]
    have hguard : ((⟨0, .arriveInit⟩ : Entry).time : ℚ) < SIM_TIME := by
      norm_num [SIM_TIME]
    have hrun : runE ⟨r.toNat, 0, m⟩ s (fuel + 1) initState =
        .error .zeroDivisionError := by
      simp only [runE, initState]
      rw [if_pos hguard]
      have : stepE ⟨r.toNat, 0, m⟩ s
          { now := 0, queue := [⟨0, .arriveInit⟩], in_use := 0, waiters := [],
            wait_times := [], delivery_times := [], busy_time := 0, idx := 0,
            grant_log := [], fired := [] } = .error .zeroDivisionError := hstep
      rw [this]
      rfl
    rw [hrun]
    rfl
  · intro fuel r q m s hr hq hs0
    have h00 : ¬ s 0 < 0 := by
      have : (0 : ℚ) ≤ SIM_TIME := by norm_num [SIM_TIME]
      exact not_lt.mpr (le_trans this hs0)
    unfold run_simulation
    rw [if_neg (not_le.mpr hr)]
    cases fuel with
    | zero =>
        show Except.ok (summarize r q initState) = _
        simp [summarize, initState, meanOrZero, round2_zero, zero_div, zero_mul]
    | succ n =>
        have hguard : ((⟨0, .arriveInit⟩ : Entry).time : ℚ) < SIM_TIME := by
          norm_num [SIM_TIME]
        have hstep : stepE ⟨r.toNat, q, m⟩ s initState = .ok
            { now := 0, queue := [⟨0 + s 0, .arrive 1⟩], in_use := 0, waiters := [],
              wait_times := [], delivery_times := [], busy_time := 0, idx := 1,
              grant_log := [], fired := [0] } := by
          simp [stepE, initState, handle, hq, h00, insertEntry]
        have hstop : stopped
            { now := 0, queue := [⟨0 + s 0, .arrive 1⟩], in_use := 0, waiters := [],
              wait_times := [], delivery_times := [], busy_time := 0, idx := 1,
              grant_log := [], fired := ([0] : List ℚ) } := by
          unfold stopped
          simpa using hs0
        have hrun : runE ⟨r.toNat, q, m⟩ s (n + 1) initState = .ok
            { now := 0, queue := [⟨0 + s 0, .arrive 1⟩], in_use := 0, waiters := [],
              wait_times := [], delivery_times := [], busy_time := 0, idx := 1,
              grant_log := [], fired := [0] } := by
          simp only [runE, initState]
          rw [if_pos hguard]
          rw [show stepE ⟨r.toNat, q, m⟩ s
              { now := 0, queue := [⟨0, .arriveInit⟩], in_use := 0, waiters := [],
                wait_times := [], delivery_times := [], busy_time := 0, idx := 0,
                grant_log := [], fired := [] } = _ from hstep]
          show runE ⟨r.toNat, q, m⟩ s n _ = _
          exact runE_of_stopped _ _ hstop n
        rw [hrun]
        show Except.ok (summarize r q _) = _
        simp [summarize, meanOrZero, round2_zero, zero_div, zero_mul]

/-- C6 witness: the amended behavior at concrete inputs. -/
theorem C6_error_behavior_witness :
    run_simulation 5 0 1 15 sBig = .error .valueError ∧
    run_simulation 5 2 0 15 sBig = .error .zeroDivisionError ∧
    run_simulation 7 2 1 15 sBig = .ok ⟨2, round2 1, 0, 0, 0, 0⟩ := by
  refine ⟨C6_error_behavior.1 5 0 1 15 sBig (by decide),
    C6_error_behavior.2.1 4 2 15 sBig (by decide),
    C6_error_behavior.2.2 7 2 1 15 sBig (by decide) (by decide) ?_⟩
  show SIM_TIME ≤ 1000
  norm_num [SIM_TIME]

/-! ### Claim C7 -/

/-- C7, counterexample: over stream sC the single delivery-completion
event triggers exactly at the horizon 180. Its trigger time is at (hence
at-or-before) the horizon, yet the run ends with the event still pending
and no delivery sample recorded: simpy's stop event fires first, so only
events strictly before the horizon are processed. -/
theorem C7_cex :
    (runE cfgA sC 20 initState).map
      (fun st => (st.delivery_times, st.queue.map (fun e => e.time), st.now)) =
      .ok ([], [180, 1010], 10) ∧
    (180 : ℚ) ≤ SIM_TIME ∧ ¬ (180 : ℚ) < SIM_TIME := by
  refine ⟨by with_unfolding_all rfl, ?_, ?_⟩ <;> norm_num [SIM_TIME]

/-- C7, amended: the scheduler repeatedly fires the earliest pending
event, advancing the clock to its trigger time, while that time is
strictly below the horizon; the sequence of fired trigger times is
non-decreasing across the entire run and every fired time is strictly
below the horizon. -/
theorem C7_monotonic_clock (fuel : ℕ) (cfg : Cfg) (s : ℕ → ℚ) (st' : SimState)
    (hok : runE cfg s fuel initState = .ok st') :
    List.Chain' (· ≤ ·) st'.fired ∧ ∀ t ∈ st'.fired, t < SIM_TIME := by
  have hinv := inv_run hok
  exact ⟨hinv.firedChain, fun t ht => (hinv.firedLE t ht).2⟩

/-- C7 witness: the fired-time sequence of the concrete sB run. -/
theorem C7_monotonic_clock_witness :
    List.Chain' (· ≤ ·) (okState (runE cfgA sB 40 initState)).fired ∧
    ∀ t ∈ (okState (runE cfgA sB 40 initState)).fired, t < SIM_TIME :=
  C7_monotonic_clock 40 cfgA sB _ (by with_unfolding_all rfl)

/-! ### Claim C8 -/

/-- C8, counterexample: over stream sA the single order is granted at t=1
and its 300-minute delivery spans the horizon. The claim's proportional
accrual would add SIM_TIME - 1 = 179 busy minutes, but the code accrues
nothing (busy_time is only incremented after a completed delivery), and a
wait-duration record for the order does exist (appended at grant), contrary
to the claim that no record is added to the wait/service sequences. -/
theorem C8_cex :
    (runE cfgA sA 20 initState).map
      (fun st => (st.busy_time, st.wait_times, st.grant_log,
        st.queue.map (fun e => e.time))) =
      .ok (0, [0], [(1, 1)], [301, 1001]) ∧
    (0 : ℚ) ≠ SIM_TIME - 1 := by
  refine ⟨by with_unfolding_all rfl, by norm_num [SIM_TIME]⟩

/-- C8, amended: busy time is all-or-nothing, not proportional: whenever a
run has reached its stop condition (no pending event below the horizon),
busy_time_total equals exactly the sum of the recorded service durations,
so an order still in service at the horizon contributes nothing. -/
theorem C8_busy_completed (fuel : ℕ) (cfg : Cfg) (s : ℕ → ℚ) (st' : SimState)
    (hok : runE cfg s fuel initState = .ok st')
    (hfin : ∀ e ∈ st'.queue, SIM_TIME ≤ e.time) :
    st'.busy_time = st'.delivery_times.sum := by
  have hinv := inv_run hok
  have hempty : st'.queue.filterMap finishPend = [] := by
    rw [List.filterMap_eq_nil_iff]
    intro e he
    cases hev : e.ev <;> simp [finishPend, hev]
    case orderFinish oid start =>
      exfalso
      have h1 : e.time ≤ st'.now :=
        hinv.grantedLE e he (Or.inr (by simp [finishPend, hev]))
      exact absurd (hfin e he) (not_le.mpr (lt_of_le_of_lt h1 hinv.nowLT))
  have hbd := hinv.busyDelivery
  rw [hempty] at hbd
  have h2 : st'.delivery_times.sum = st'.busy_time := by simpa using hbd
  exact h2.symm

/-- C8 witness: after the finished sB run, busy_time equals the sum of the
recorded delivery durations. -/
theorem C8_busy_completed_witness :
    (okState (runE cfgA sB 40 initState)).busy_time =
      (okState (runE cfgA sB 40 initState)).delivery_times.sum :=
  C8_busy_completed 40 cfgA sB _ (by with_unfolding_all rfl)
    (by with_unfolding_all decide)

/-! ### Claim C9 -/

/-- If the lower-capacity run never queues any order, raising the capacity
does not change a single step: both runs consume the shared stream
identically. The hypothesis is anchored at the initial state and
propagated stepwise. -/
theorem runE_congr_capacity (q m : ℚ) (cap cap2 : ℕ) (hcap : cap ≤ cap2)
    (s : ℕ → ℚ) :
    ∀ (k : ℕ) (st : SimState),
      (∀ (k2 : ℕ) (st2 : SimState),
        runE ⟨cap, q, m⟩ s k2 st = .ok st2 → st2.waiters = []) →
      runE ⟨cap2, q, m⟩ s k st = runE ⟨cap, q, m⟩ s k st := by
  intro k
  induction k with
  | zero => intro st _; rfl
  | succ k ih =>
      intro st hnever
      cases hq : st.queue with
      | nil => simp only [runE, hq]
      | cons e rest =>
          simp only [runE, hq]
          by_cases hguard : e.time < SIM_TIME
          · rw [if_pos hguard, if_pos hguard]
            have hstepeq : stepE ⟨cap2, q, m⟩ s st = stepE ⟨cap, q, m⟩ s st := by
              cases hev : e.ev with
              | orderStart oid =>
                  simp only [stepE, hq, hev, handle]
                  by_cases hfree : st.in_use < (cap : ℤ)
                  · rw [if_pos hfree, if_pos (lt_of_lt_of_le hfree (by exact_mod_cast hcap))]
                  · exfalso
                    have hok1 : runE ⟨cap, q, m⟩ s 1 st =
                        stepE ⟨cap, q, m⟩ s st := by
                      simp only [runE, hq, if_pos hguard]
                      cases hst : stepE ⟨cap, q, m⟩ s st <;> rfl
                    have hst : stepE ⟨cap, q, m⟩ s st = .ok
                        { st with now := e.time
                                  queue := rest
                                  fired := st.fired ++ [e.time]
                                  waiters := st.waiters ++ [(oid, e.time)] } := by
                      simp only [stepE, hq, hev, handle]
                      rw [if_neg hfree]
                    have := hnever 1 _ (by rw [hok1, hst])
                    simp at this
              | arriveInit => simp only [stepE, hq, hev, handle]
              | arrive oid => simp only [stepE, hq, hev, handle]
              | granted oid arrival => simp only [stepE, hq, hev, handle]
              | deliverStart oid start => simp only [stepE, hq, hev, handle]
              | deliverEnd oid start d => simp only [stepE, hq, hev, handle]
              | orderFinish oid start => simp only [stepE, hq, hev, handle]
            rw [hstepeq]
            cases hst : stepE ⟨cap, q, m⟩ s st with
            | error err => rfl
            | ok st2 =>
                simp only [Except.bind]
                refine ih st2 ?_
                intro k2 st3 h3
                refine hnever (k2 + 1) st3 ?_
                simp only [runE, hq, if_pos hguard, hst, Except.bind]
                exact h3
          · rw [if_neg hguard, if_neg hguard]

/-- C9, amended: increasing the capacity from 5 to 8 cannot increase the
returned average wait when the 5-rider run never queues an order (both
runs then coincide, so the averages are equal); in general the guarantee
fails because the two runs reassign the shared seeded draw stream (see
the counterexample). -/
theorem C9_capacity_scaling (fuel : ℕ) (q m : ℚ) (s : ℕ → ℚ)
    (hnever : ∀ (k : ℕ) (st : SimState),
      runE ⟨5, q, m⟩ s k initState = .ok st → st.waiters = []) :
    (run_simulation fuel 8 q m s).map (fun r => r.avg_wait_minutes) =
    (run_simulation fuel 5 q m s).map (fun r => r.avg_wait_minutes) := by
  unfold run_simulation
  rw [if_neg (by decide : ¬ (8 : ℤ) ≤ 0), if_neg (by decide : ¬ (5 : ℤ) ≤ 0)]
  have h58 : runE ⟨(8 : ℤ).toNat, q, m⟩ s fuel initState =
      runE ⟨(5 : ℤ).toNat, q, m⟩ s fuel initState := by
    exact runE_congr_capacity q m 5 8 (by decide) s fuel initState hnever
  rw [h58]
  cases runE ⟨(5 : ℤ).toNat, q, m⟩ s fuel initState with
  | error err => rfl
  | ok st => rfl

/-- C9, counterexample: with arrival rate and mean service time held fixed
and the same seeded stream s9, the 5-rider run returns avg_wait 0.77 while
the 8-rider run returns 0.79: increasing capacity from 5 to 8 strictly
increases avg_wait_minutes, because the shared stream is consumed in event
order and capacity changes which draws become gaps versus service times. -/
theorem C9_cex :
    (run_simulation 300 5 (6 / 10) 15 s9).map (fun m => m.avg_wait_minutes) =
      .ok (77 / 100) ∧
    (run_simulation 300 8 (6 / 10) 15 s9).map (fun m => m.avg_wait_minutes) =
      .ok (79 / 100) ∧
    ¬ ((79 : ℚ) / 100 ≤ 77 / 100) := by
  refine ⟨by with_unfolding_all rfl, by with_unfolding_all rfl,
    by with_unfolding_all decide⟩

/-- C9 witness: over a stream whose first gap exceeds the horizon, the
5-rider run never queues anyone and both capacities return the same
average wait. -/
theorem C9_capacity_scaling_witness :
    (run_simulation 10 8 1 15 sBig).map (fun r => r.avg_wait_minutes) =
    (run_simulation 10 5 1 15 sBig).map (fun r => r.avg_wait_minutes) := by
  refine C9_capacity_scaling 10 1 15 sBig ?_
  intro k st hok
  cases k with
  | zero =>
      cases hok
      rfl
  | succ k =>
      have h1 : runE ⟨5, 1, 15⟩ sBig 1 initState =
          .ok (okState (runE ⟨5, 1, 15⟩ sBig 1 initState)) := by
        with_unfolding_all rfl
      have hstop : stopped (okState (runE ⟨5, 1, 15⟩ sBig 1 initState)) := by
        with_unfolding_all decide
      have := runE_mono ⟨5, 1, 15⟩ sBig h1 hstop (Nat.succ_le_succ (Nat.zero_le k))
      rw [this] at hok
      cases hok
      with_unfolding_all decide

/-! ### Claim C10 -/

/-- C10: cross-call noninterference. run_simulation reseeds the module
generator with the constant RANDOM_SEED = 42 on every call (there is no
per-call seed argument), so its result and outgoing generator state depend
only on its arguments and on the seeded stream for 42: they are identical
for any incoming generator state (any prior history of runs in the
process) and for any two seeding functions that agree at 42. -/
theorem C10_noninterference (mt mt2 : ℕ → ℕ → ℚ)
    (h42 : mt RANDOM_SEED = mt2 RANDOM_SEED) (fuel : ℕ) (r : ℤ) (q m : ℚ)
    (g g2 : RandomState) :
    run_simulation_proc mt fuel r q m g = run_simulation_proc mt2 fuel r q m g2 := by
  unfold run_simulation_proc
  rw [h42]

/-- C10 witness: two calls with different incoming generator states give
identical outputs. -/
theorem C10_noninterference_witness :
    run_simulation_proc (fun _ _ => 1) 3 1 1 15 ⟨fun _ => 0, 0⟩ =
    run_simulation_proc (fun _ _ => 1) 3 1 1 15 ⟨fun _ => 5, 7⟩ :=
  C10_noninterference (fun _ _ => 1) (fun _ _ => 1) rfl 3 1 1 15 ⟨fun _ => 0, 0⟩
    ⟨fun _ => 5, 7⟩

end FoodDelivery
